import Mathlib

/-!
Verification of the sntry-platform record-handling logic.

Part A embeds the lead-scoring module (`static/js/leads.js` style file,
`LEAD_SCORING_WEIGHTS`, `calculateLeadScore`, `getLeadScoreCategory`,
`getLeadScoreColor`) as Lean functions over a shallow model of a JS
business object (truthiness of fields is modelled explicitly).

Part B embeds the record deduplication engine described by the
specification.  The engine itself is not present in the repository
sources (only design documents reference it), so its definitions are
modelled from the specification text, as marked in their doc comments.
-/

namespace Leads

/-- Shallow model of the JS business object as consumed by
`calculateLeadScore`.  Boolean fields model JS truthiness of the
corresponding properties (`phone_number`, `email`, `website`,
`latitude`, `longitude`); `rating` is `none` when absent/null (falsy),
`some r` when a number is present (truthy iff nonzero); `description`
is `none` when absent. -/
structure Business where
  phone_number : Bool
  email : Bool
  website : Bool
  latitude : Bool
  longitude : Bool
  rating : Option ℚ
  description : Option String
deriving DecidableEq

/-- `LEAD_SCORING_WEIGHTS` from the source: the seven scoring weights. -/
structure LeadWeights where
  hasPhone : ℕ
  hasEmail : ℕ
  hasWebsite : ℕ
  isGeocoded : ℕ
  hasRating : ℕ
  highRating : ℕ
  completeProfile : ℕ
deriving DecidableEq

def LEAD_SCORING_WEIGHTS : LeadWeights :=
  ⟨20, 25, 15, 10, 10, 15, 5⟩

/-- JS truthiness of `business.rating`: present and nonzero. -/
def ratingTruthy (b : Business) : Bool :=
  match b.rating with
  | none => false
  | some r => decide (r ≠ 0)

/-- JS test `business.rating >= 4.0` (evaluated only under truthiness in
the source). -/
def ratingHigh (b : Business) : Bool :=
  match b.rating with
  | none => false
  | some r => decide ((4 : ℚ) ≤ r)

/-- Trimmed length of a string, JS `String.prototype.trim().length`. -/
def trimmedLen (s : String) : ℕ :=
  (((s.data.dropWhile Char.isWhitespace).reverse.dropWhile Char.isWhitespace).reverse).length

/-- JS test `business.description && business.description.trim().length > 50`. -/
def descComplete (b : Business) : Bool :=
  match b.description with
  | none => false
  | some s => decide (s ≠ "") && decide (50 < trimmedLen s)

/-- The raw accumulated score of `calculateLeadScore` before the final
`Math.min(score, 100)` cap, following the source's accumulation
structure (the `highRating` bonus is nested under the `rating`
truthiness test). -/
def rawLeadScore (b : Business) : ℕ :=
  (if b.phone_number then LEAD_SCORING_WEIGHTS.hasPhone else 0)
  + (if b.email then LEAD_SCORING_WEIGHTS.hasEmail else 0)
  + (if b.website then LEAD_SCORING_WEIGHTS.hasWebsite else 0)
  + (if b.latitude && b.longitude then LEAD_SCORING_WEIGHTS.isGeocoded else 0)
  + (if ratingTruthy b then
      LEAD_SCORING_WEIGHTS.hasRating
      + (if ratingHigh b then LEAD_SCORING_WEIGHTS.highRating else 0)
    else 0)
  + (if descComplete b then LEAD_SCORING_WEIGHTS.completeProfile else 0)

/-- `calculateLeadScore` from the source: raw accumulation capped at 100. -/
def calculateLeadScore (b : Business) : ℕ :=
  min (rawLeadScore b) 100

/-- `LEAD_SCORE_THRESHOLDS` from the source. -/
def LEAD_SCORE_THRESHOLDS_high : ℚ := 70
def LEAD_SCORE_THRESHOLDS_medium : ℚ := 40
def LEAD_SCORE_THRESHOLDS_low : ℚ := 0

/-- `getLeadScoreCategory` from the source; scores are JS numbers,
modelled as rationals. -/
def getLeadScoreCategory (score : ℚ) : String :=
  if LEAD_SCORE_THRESHOLDS_high ≤ score then "high"
  else if LEAD_SCORE_THRESHOLDS_medium ≤ score then "medium"
  else "low"

/-- `getLeadScoreColor` from the source, including its (default) gray
branch. -/
def getLeadScoreColor (score : ℚ) : String :=
  let category := getLeadScoreCategory score
  if category = "high" then "#28a745"
  else if category = "medium" then "#ffc107"
  else if category = "low" then "#dc3545"
  else "#6c757d"

/-- The flat sum of the weights of exactly the criteria the business
satisfies (the `highRating` criterion being `rating` truthy and at
least 4). -/
def criteriaWeightSum (b : Business) : ℕ :=
  (if b.phone_number then LEAD_SCORING_WEIGHTS.hasPhone else 0)
  + (if b.email then LEAD_SCORING_WEIGHTS.hasEmail else 0)
  + (if b.website then LEAD_SCORING_WEIGHTS.hasWebsite else 0)
  + (if b.latitude && b.longitude then LEAD_SCORING_WEIGHTS.isGeocoded else 0)
  + (if ratingTruthy b then LEAD_SCORING_WEIGHTS.hasRating else 0)
  + (if ratingTruthy b && ratingHigh b then LEAD_SCORING_WEIGHTS.highRating else 0)
  + (if descComplete b then LEAD_SCORING_WEIGHTS.completeProfile else 0)

end Leads

namespace Leads

theorem rawLeadScore_le_100 (b : Business) : rawLeadScore b ≤ 100 := by
  unfold rawLeadScore
  split_ifs <;> simp [LEAD_SCORING_WEIGHTS]

/-- C9: `calculateLeadScore` always returns a score in [0, 100]; since
the seven weights sum to exactly 100 the `Math.min _ 100` cap never
changes the result, and the returned value is the plain sum of the
weights of the satisfied criteria. -/
theorem calculateLeadScore_spec (b : Business) :
    calculateLeadScore b ≤ 100
    ∧ calculateLeadScore b = rawLeadScore b
    ∧ calculateLeadScore b = criteriaWeightSum b
    ∧ LEAD_SCORING_WEIGHTS.hasPhone + LEAD_SCORING_WEIGHTS.hasEmail
        + LEAD_SCORING_WEIGHTS.hasWebsite + LEAD_SCORING_WEIGHTS.isGeocoded
        + LEAD_SCORING_WEIGHTS.hasRating + LEAD_SCORING_WEIGHTS.highRating
        + LEAD_SCORING_WEIGHTS.completeProfile = 100 := by
  have hle := rawLeadScore_le_100 b
  have hcap : calculateLeadScore b = rawLeadScore b := by
    unfold calculateLeadScore
    omega
  have hflat : rawLeadScore b = criteriaWeightSum b := by
    unfold rawLeadScore criteriaWeightSum
    by_cases h : ratingTruthy b = true <;> split_ifs <;> simp_all <;> omega
  refine ⟨by omega, hcap, by omega, by decide⟩

/-- C10: `getLeadScoreCategory` is total on numeric scores, returning
exactly one of the three category strings with the stated threshold
characterisation, and consequently the gray default branch of
`getLeadScoreColor` is unreachable. -/
theorem getLeadScoreCategory_spec (score : ℚ) :
    (getLeadScoreCategory score = "high"
      ∨ getLeadScoreCategory score = "medium"
      ∨ getLeadScoreCategory score = "low")
    ∧ (getLeadScoreCategory score = "high" ↔ 70 ≤ score)
    ∧ (getLeadScoreCategory score = "medium" ↔ 40 ≤ score ∧ score < 70)
    ∧ (getLeadScoreCategory score = "low" ↔ score < 40)
    ∧ getLeadScoreColor score ≠ "#6c757d" := by
  unfold getLeadScoreColor getLeadScoreCategory
  unfold LEAD_SCORE_THRESHOLDS_high LEAD_SCORE_THRESHOLDS_medium
  split_ifs with h1 h2 <;> simp_all <;> linarith

end Leads

namespace Dedup

/-- Record identifiers, per the spec caller-assigned stable identifiers. -/
abbrev RecId := ℕ

/-- Modelled from the spec: the `Record` data model of §3 — an entity
instance with a stable identifier, the comparable string fields, an
optional rating, a free-text description, timestamps and an active
flag.  (The deduplication engine itself is absent from the repository
sources; every definition of this namespace is modelled from the
specification text.) -/
structure Record where
  id : RecId
  name : String
  address : String
  phone : String
  email : String
  website : String
  rating : Option ℚ
  description : String
  createdAt : ℕ
  lastSeen : ℕ
  active : Bool
deriving DecidableEq

/-- A record with every optional/auxiliary field defaulted, used to
build concrete inputs. -/
def mkRecord (i : RecId) (n a p e w : String) : Record :=
  ⟨i, n, a, p, e, w, none, "", 0, 0, true⟩

/-- Lower-casing a string character by character (structural, so that
concrete instances reduce in the kernel). -/
def lowerStr (s : String) : String :=
  ⟨s.data.map Char.toLower⟩

/-- Splits a character list into maximal whitespace-free words. -/
def wordsAux : List Char → List Char → List String
  | [], acc => if acc.isEmpty then [] else [⟨acc.reverse⟩]
  | c :: cs, acc =>
    if c.isWhitespace then
      if acc.isEmpty then wordsAux cs [] else (⟨acc.reverse⟩ : String) :: wordsAux cs []
    else wordsAux cs (c :: acc)

/-- The whitespace-separated words of a string. -/
def words (s : String) : List String := wordsAux s.data []

/-- Modelled from the spec (§4.1): keep only the digits of a phone
number. -/
def digitsOnly (s : String) : String :=
  ⟨s.data.filter Char.isDigit⟩

/-- Boolean test that `p` begins the character list `l`. -/
def leadsWith : List Char → List Char → Bool
  | [], _ => true
  | _ :: _, [] => false
  | a :: as, b :: bs => a = b && leadsWith as bs

/-- Drops a leading literal from a string when present. -/
def dropLead (p s : String) : String :=
  if leadsWith p.data s.data then ⟨s.data.drop p.data.length⟩ else s

/-- Modelled from the spec (§4.1): lower-case a website URL and strip
its scheme and a leading `www.`. -/
def normWebsite (s : String) : String :=
  dropLead "www." (dropLead "http://" (dropLead "https://" (lowerStr s)))

/-- Modelled from the spec (§4.1): expansion of common address-token
abbreviations. -/
def fixAbbrev (t : String) : String :=
  if t = "st" ∨ t = "st." then "street"
  else if t = "ave" ∨ t = "ave." then "avenue"
  else if t = "rd" ∨ t = "rd." then "road"
  else if t = "dr" ∨ t = "dr." then "drive"
  else if t = "blvd" ∨ t = "blvd." then "boulevard"
  else t

/-- Modelled from the spec (§3): the ephemeral normalized view of a
record.  The canonical forms of name and address are kept as their
token lists (lower-cased, whitespace-collapsed, and for the address
abbreviation-expanded), phone as digits only, email lower-cased and
trimmed, website with scheme and `www.` stripped. -/
structure NormalizedRecord where
  id : RecId
  name : List String
  address : List String
  phone : String
  email : String
  website : String
deriving DecidableEq

/-- Modelled from the spec (§4.1): the Normalizer, a total pure
function; absent fields normalize to empty. -/
def normalize (r : Record) : NormalizedRecord :=
  { id := r.id
    name := words (lowerStr r.name)
    address := (words (lowerStr r.address)).map fixAbbrev
    phone := digitsOnly r.phone
    email := String.intercalate " " (words (lowerStr r.email))
    website := normWebsite r.website }

/-- Modelled from the spec (§4.2): the exact-match key — in the source
design, a cryptographic hash of normalized name + address; modelled as
the pair of canonical forms themselves (grouping by a collision-free
hash is grouping by the hashed content). -/
def recKey (r : Record) : List String × List String :=
  ((normalize r).name, (normalize r).address)

/-- Jaccard similarity of two token sets, scaled to 0–100. -/
def jaccard (a b : Finset String) : ℚ :=
  100 * ((a ∩ b).card : ℚ) / ((a ∪ b).card : ℚ)

/-- Modelled from the spec (§4.3): token-order-independent name
similarity (token-set similarity of the canonical token lists). -/
def simTokens (a b : List String) : ℚ :=
  jaccard a.toFinset b.toFinset

/-- Modelled from the spec (§4.3): binary exact similarity used for
phone (digits-only), email, and website (domain) comparison. -/
def simExact (a b : String) : ℚ :=
  if a = b then 100 else 0

/-- Modelled from the spec (§4.3): configurable per-field weights with
the stated defaults. -/
structure Weights where
  name : ℚ
  address : ℚ
  phone : ℚ
  email : ℚ
  website : ℚ
deriving DecidableEq

def defaultWeights : Weights := ⟨1/2, 3/10, 3/20, 1/20, 0⟩

def Weights.total (w : Weights) : ℚ :=
  w.name + w.address + w.phone + w.email + w.website

/-- Modelled from the spec (§4.3): the per-field entries
(field name, weight, similarity score) of the fields present in both
records; a field missing in either record contributes no entry. -/
def fieldEntries (w : Weights) (a b : NormalizedRecord) : List (String × ℚ × ℚ) :=
  (if a.name ≠ [] ∧ b.name ≠ [] then [("name", w.name, simTokens a.name b.name)] else [])
  ++ (if a.address ≠ [] ∧ b.address ≠ [] then
        [("address", w.address, simTokens a.address b.address)] else [])
  ++ (if a.phone ≠ "" ∧ b.phone ≠ "" then [("phone", w.phone, simExact a.phone b.phone)] else [])
  ++ (if a.email ≠ "" ∧ b.email ≠ "" then [("email", w.email, simExact a.email b.email)] else [])
  ++ (if a.website ≠ "" ∧ b.website ≠ "" then
        [("website", w.website, simExact a.website b.website)] else [])

/-- Modelled from the spec (§4.3): aggregate confidence — the weighted
sum of per-field scores re-normalized over only the fields present in
both records; `none` (undefined) when the pair shares no comparable
field of positive total weight. -/
def compare (w : Weights) (a b : NormalizedRecord) : Option ℚ :=
  let es := fieldEntries w a b
  let tw := (es.map (fun e => e.2.1)).sum
  if tw = 0 then none else some ((es.map (fun e => e.2.1 * e.2.2)).sum / tw)

/-- Modelled from the spec (§4.4): confidence tiers. -/
inductive Tier where
  | none
  | low
  | medium
  | high
deriving DecidableEq

/-- Modelled from the spec (§6): the engine's configuration surface —
field weights, fuzzy acceptance threshold, and tier boundaries, all
with the stated defaults. -/
structure Config where
  weights : Weights
  threshold : ℚ
  tierHigh : ℚ
  tierMedium : ℚ
  tierLow : ℚ
deriving DecidableEq

def defaultConfig : Config := ⟨defaultWeights, 80, 90, 70, 50⟩

/-- Modelled from the spec (§4.4): the Match Classifier's mapping from
aggregate confidence to a tier. -/
def classify (cfg : Config) (c : ℚ) : Tier :=
  if cfg.tierHigh ≤ c then .high
  else if cfg.tierMedium ≤ c then .medium
  else if cfg.tierLow ≤ c then .low
  else .none

/-- Modelled from the spec (§7b): a configuration is valid when the
weights are nonnegative and sum sensibly (to 1) and every threshold
lies inside [0, 100]. -/
def validConfig (cfg : Config) : Prop :=
  0 ≤ cfg.weights.name ∧ 0 ≤ cfg.weights.address ∧ 0 ≤ cfg.weights.phone
  ∧ 0 ≤ cfg.weights.email ∧ 0 ≤ cfg.weights.website
  ∧ cfg.weights.total = 1
  ∧ 0 ≤ cfg.threshold ∧ cfg.threshold ≤ 100
  ∧ 0 ≤ cfg.tierHigh ∧ cfg.tierHigh ≤ 100
  ∧ 0 ≤ cfg.tierMedium ∧ cfg.tierMedium ≤ 100
  ∧ 0 ≤ cfg.tierLow ∧ cfg.tierLow ≤ 100

instance (cfg : Config) : Decidable (validConfig cfg) := by
  unfold validConfig
  infer_instance

end Dedup


namespace Dedup

/-- Modelled from the spec (§7a): a record is invalid when all of its
comparable fields normalize to empty. -/
def validRecord (r : Record) : Prop :=
  ¬ ((normalize r).name = [] ∧ (normalize r).address = [] ∧ (normalize r).phone = ""
      ∧ (normalize r).email = "" ∧ (normalize r).website = "")

instance (r : Record) : Decidable (validRecord r) := by
  unfold validRecord
  infer_instance

/-- The number of non-empty fields of a record (criterion (1) of the
Merge Resolver's primary selection). -/
def fieldCount (r : Record) : ℕ :=
  (if r.name ≠ "" then 1 else 0) + (if r.address ≠ "" then 1 else 0)
  + (if r.phone ≠ "" then 1 else 0) + (if r.email ≠ "" then 1 else 0)
  + (if r.website ≠ "" then 1 else 0) + (if r.description ≠ "" then 1 else 0)
  + (if r.rating.isSome then 1 else 0)

/-- The rating used for tie-breaking; a missing rating counts as 0. -/
def ratingVal (r : Record) : ℚ :=
  r.rating.getD 0

/-- Modelled from the spec (§4.5): the strict priority order of
primary-record selection — `beats a b` holds when `a` is preferred to
`b`: more non-empty fields, then higher rating, then most recently
seen, then lowest identifier. -/
def beats (a b : Record) : Prop :=
  fieldCount b < fieldCount a
  ∨ (fieldCount a = fieldCount b
      ∧ (ratingVal b < ratingVal a
        ∨ (ratingVal a = ratingVal b
            ∧ (b.lastSeen < a.lastSeen
              ∨ (a.lastSeen = b.lastSeen ∧ a.id < b.id)))))

instance (a b : Record) : Decidable (beats a b) := by
  unfold beats
  infer_instance

/-- Folds over candidates keeping the record preferred by `beats`. -/
def pickPrimary : Record → List Record → Record
  | p, [] => p
  | p, r :: rs => pickPrimary (if beats r p then r else p) rs

/-- Modelled from the spec (§4.5): merging one further group member
into the accumulated merged record, together with provenance entries
for every field value taken from the incoming record.  Free-text
descriptions are concatenated-and-deduplicated, ratings keep the
higher value, contacts prefer the most recently observed non-empty
value, and other fields prefer the non-empty value. -/
def mergeStep (acc : Record × List (String × RecId)) (r : Record) :
    Record × List (String × RecId) :=
  let m := acc.1
  let takeName := m.name = "" ∧ r.name ≠ ""
  let takeAddr := m.address = "" ∧ r.address ≠ ""
  let takePhone := r.phone ≠ "" ∧ (m.phone = "" ∨ (r.phone ≠ m.phone ∧ m.lastSeen < r.lastSeen))
  let takeEmail := r.email ≠ "" ∧ (m.email = "" ∨ (r.email ≠ m.email ∧ m.lastSeen < r.lastSeen))
  let takeSite :=
    r.website ≠ "" ∧ (m.website = "" ∨ (r.website ≠ m.website ∧ m.lastSeen < r.lastSeen))
  let newRating : Option ℚ :=
    match m.rating, r.rating with
    | none, x => x
    | some x, none => some x
    | some x, some y => some (max x y)
  let newDesc :=
    if r.description ≠ "" ∧ r.description ≠ m.description then
      (if m.description = "" then r.description else m.description ++ "; " ++ r.description)
    else m.description
  (⟨m.id,
    if takeName then r.name else m.name,
    if takeAddr then r.address else m.address,
    if takePhone then r.phone else m.phone,
    if takeEmail then r.email else m.email,
    if takeSite then r.website else m.website,
    newRating, newDesc, m.createdAt, max m.lastSeen r.lastSeen, m.active⟩,
   acc.2 ++ (if takeName then [("name", r.id)] else [])
     ++ (if takeAddr then [("address", r.id)] else [])
     ++ (if takePhone then [("phone", r.id)] else [])
     ++ (if takeEmail then [("email", r.id)] else [])
     ++ (if takeSite then [("website", r.id)] else []))

/-- Merges the non-primary members into the primary, accumulating
provenance. -/
def mergeWithProv (p : Record) (others : List Record) : Record × List (String × RecId) :=
  others.foldl mergeStep (p, [])

/-- Modelled from the spec (§3): a merge decision — the merged primary
record, the identifiers it subsumes, and field provenance. -/
structure MergeDecision where
  primary : Record
  subsumed : List RecId
  provenance : List (String × RecId)
deriving DecidableEq

/-- All identifiers covered by a decision: the primary's and the
subsumed ones. -/
def MergeDecision.groupIds (d : MergeDecision) : List RecId :=
  d.primary.id :: d.subsumed

/-- Modelled from the spec (§4.5): `resolve(group) -> MergeDecision` —
select the primary by the priority order, merge the remaining members
into it, and record the subsumed identifiers. -/
def resolveList : List Record → Option MergeDecision
  | [] => none
  | r :: rs =>
    let p := pickPrimary r rs
    let others := (r :: rs).filter (fun q => decide (q.id ≠ p.id))
    let mp := mergeWithProv p others
    some ⟨mp.1, others.map Record.id, mp.2⟩

/-- Modelled from the spec (§3): a match result — the two record
identifiers, the contributing per-field scores, the aggregate
confidence and its tier. -/
structure MatchResult where
  idA : RecId
  idB : RecId
  fieldScores : List (String × ℚ)
  confidence : ℚ
  tier : Tier
deriving DecidableEq

/-- All unordered pairs of a list (each pair once, in list order). -/
def allPairs : List α → List (α × α)
  | [] => []
  | x :: xs => xs.map (fun y => (x, y)) ++ allPairs xs

/-- The match result recorded for two members of one exact-duplicate
cluster: confidence exactly 100, tier HIGH (§4.2). -/
def exactMatch (a b : Record) : MatchResult :=
  ⟨a.id, b.id, [("name", 100), ("address", 100)], 100, .high⟩

/-- Modelled from the spec (§4.3): a fuzzy candidate pair is recorded
only when its confidence is defined, reaches the acceptance threshold
and is not classified NONE (§4.4: NONE is not reported). -/
def fuzzyCandidate (cfg : Config) (p : Record × Record) : Option MatchResult :=
  match Dedup.compare cfg.weights (normalize p.1) (normalize p.2) with
  | none => none
  | some c =>
    if cfg.threshold ≤ c ∧ classify cfg c ≠ .none then
      some ⟨p.1.id, p.2.id,
        (fieldEntries cfg.weights (normalize p.1) (normalize p.2)).map (fun e => (e.1, e.2.2)),
        c, classify cfg c⟩
    else none

/-- Adds one edge to a list of pairwise-disjoint components, merging
every component the edge touches. -/
def insertEdge (cs : List (List RecId)) (a b : RecId) : List (List RecId) :=
  (a :: b :: (cs.filter (fun c => decide (a ∈ c ∨ b ∈ c))).flatten)
    :: cs.filter (fun c => decide (¬ (a ∈ c ∨ b ∈ c)))

def componentsAux : List (RecId × RecId) → List (List RecId) → List (List RecId)
  | [], cs => cs
  | e :: es, cs => componentsAux es (insertEdge cs e.1 e.2)

/-- Modelled from the spec (§4.4): the connected components of the
HIGH-confidence match graph (the union-find over record identifiers). -/
def components (es : List (RecId × RecId)) : List (List RecId) :=
  componentsAux es []

/-- Valid records of the input (§7a keeps them). -/
def goodRecords (input : List Record) : List Record :=
  input.filter (fun r => decide (validRecord r))

/-- Invalid records, rejected and surfaced to the caller (§7a). -/
def rejectedRecords (input : List Record) : List Record :=
  input.filter (fun r => decide (¬ validRecord r))

/-- The distinct exact-match keys of the valid records, in first
occurrence order. -/
def dedupKeys (input : List Record) : List (List String × List String) :=
  ((goodRecords input).map recKey).dedup

/-- Modelled from the spec (§4.2): grouping of the valid records by
exact-match key. -/
def groupsOf (input : List Record) : List (List Record) :=
  (dedupKeys input).map (fun k => (goodRecords input).filter (fun r => decide (recKey r = k)))

/-- Modelled from the spec (§4.2): every key group of two or more
members collapses through the Merge Resolver. -/
def exactDecisions (input : List Record) : List MergeDecision :=
  (groupsOf input).filterMap (fun g => if 2 ≤ g.length then resolveList g else none)

/-- The records that proceed to fuzzy matching: each group's resolved
primary (singleton groups survive untouched). -/
def survivors (input : List Record) : List Record :=
  (groupsOf input).filterMap (fun g => (resolveList g).map MergeDecision.primary)

/-- The confidence-100 match results of the exact-duplicate clusters. -/
def exactMatchResults (input : List Record) : List MatchResult :=
  (((groupsOf input).filter (fun g => decide (2 ≤ g.length))).map
    (fun g => (allPairs g).map (fun p => exactMatch p.1 p.2))).flatten

/-- Modelled from the spec (§4.3): the recorded fuzzy match results
over all unordered pairs of survivors. -/
def fuzzyMatches (cfg : Config) (input : List Record) : List MatchResult :=
  (allPairs (survivors input)).filterMap (fuzzyCandidate cfg)

/-- The HIGH-classified fuzzy pairs, as edges over record identifiers. -/
def highEdges (cfg : Config) (input : List Record) : List (RecId × RecId) :=
  ((fuzzyMatches cfg input).filter (fun m => decide (m.tier = Tier.high))).map
    (fun m => (m.idA, m.idB))

/-- The connected components of the HIGH-confidence graph (duplicate
entries inside one component removed). -/
def comps (cfg : Config) (input : List Record) : List (List RecId) :=
  (components (highEdges cfg input)).map List.dedup

/-- Modelled from the spec (§4.4): one MergeDecision per HIGH
connected component. -/
def fuzzyDecisions (cfg : Config) (input : List Record) : List MergeDecision :=
  (comps cfg input).filterMap
    (fun c => resolveList ((survivors input).filter (fun r => decide (r.id ∈ c))))

/-- Every identifier inside some HIGH connected component. -/
def highMembers (cfg : Config) (input : List Record) : List RecId :=
  (comps cfg input).flatten

/-- Modelled from the spec (§4.4, §4.6): MEDIUM/LOW matches become
review items; a candidate whose either member is being merged by a
HIGH component is not surfaced (its records are consumed by the merge). -/
def reviewQueueOf (cfg : Config) (input : List Record) : List MatchResult :=
  (fuzzyMatches cfg input).filter
    (fun m => decide ((m.tier = Tier.medium ∨ m.tier = Tier.low)
      ∧ m.idA ∉ highMembers cfg input ∧ m.idB ∉ highMembers cfg input))

/-- The identifiers referenced by the review queue. -/
def reviewIdsOf (cfg : Config) (input : List Record) : List RecId :=
  (reviewQueueOf cfg input).map MatchResult.idA
    ++ (reviewQueueOf cfg input).map MatchResult.idB

/-- Modelled from the spec (§4.6): the final record set — the merged
primaries of the HIGH components plus every survivor neither consumed
by a HIGH merge nor held out into the review queue. -/
def finalRecordsOf (cfg : Config) (input : List Record) : List Record :=
  (fuzzyDecisions cfg input).map MergeDecision.primary
    ++ (survivors input).filter
        (fun r => decide (r.id ∉ highMembers cfg input ∧ r.id ∉ reviewIdsOf cfg input))

/-- The full result of one deduplication pass. -/
structure RunOutput where
  finalRecords : List Record
  decisions : List MergeDecision
  reviewQueue : List MatchResult
  exactMatches : List MatchResult
  fuzzyMatched : List MatchResult
  rejected : List Record
deriving DecidableEq

/-- Modelled from the spec (§4.6): the Deduplication Orchestrator's
single forward pass INIT → EXACT_PASS → FUZZY_PASS → CLASSIFY → MERGE
→ DONE. -/
def runOutput (cfg : Config) (input : List Record) : RunOutput :=
  ⟨finalRecordsOf cfg input,
   exactDecisions input ++ fuzzyDecisions cfg input,
   reviewQueueOf cfg input,
   exactMatchResults input,
   fuzzyMatches cfg input,
   rejectedRecords input⟩

inductive DedupError where
  | configurationError
deriving DecidableEq

/-- Modelled from the spec (§7b): the engine validates its
configuration before any processing and otherwise performs the pass. -/
def run (cfg : Config) (input : List Record) : Except DedupError RunOutput :=
  if validConfig cfg then .ok (runOutput cfg input) else .error .configurationError

/-- Identifier views of a run's output, used by the partition
statements. -/
def RunOutput.finalIds (o : RunOutput) : List RecId :=
  o.finalRecords.map Record.id

def RunOutput.subsumedIds (o : RunOutput) : List RecId :=
  (o.decisions.map MergeDecision.subsumed).flatten

def RunOutput.reviewIds (o : RunOutput) : List RecId :=
  o.reviewQueue.map MatchResult.idA ++ o.reviewQueue.map MatchResult.idB

/-- Exactly one of three alternatives holds. -/
def exactlyOne3 (p q r : Prop) : Prop :=
  (p ∧ ¬ q ∧ ¬ r) ∨ (¬ p ∧ q ∧ ¬ r) ∨ (¬ p ∧ ¬ q ∧ r)

/-- Identifier-disjointness of two components. -/
def idDisj (c d : List RecId) : Prop :=
  ∀ x, x ∈ c → x ∉ d

/-- Disjointness of the subsumed sets of two merge decisions. -/
def subDisj (d₁ d₂ : MergeDecision) : Prop :=
  ∀ i, i ∈ d₁.subsumed → i ∉ d₂.subsumed

/-- The identifiers subsumed by the exact pass. -/
def exactSubsumedIds (input : List Record) : List RecId :=
  ((exactDecisions input).map MergeDecision.subsumed).flatten

end Dedup

namespace Dedup

theorem beats_trans {a b c : Record} (hab : beats a b) (hbc : beats b c) : beats a c := by
  unfold beats at hab hbc ⊢
  rcases hab with h1 | ⟨e1, hab'⟩ <;> rcases hbc with h2 | ⟨e2, hbc'⟩
  · exact Or.inl (h2.trans h1)
  · exact Or.inl (lt_of_eq_of_lt e2.symm h1)
  · exact Or.inl (lt_of_lt_of_eq h2 e1.symm)
  · refine Or.inr ⟨e1.trans e2, ?_⟩
    rcases hab' with g1 | ⟨f1, hab''⟩ <;> rcases hbc' with g2 | ⟨f2, hbc''⟩
    · exact Or.inl (g2.trans g1)
    · exact Or.inl (lt_of_eq_of_lt f2.symm g1)
    · exact Or.inl (lt_of_lt_of_eq g2 f1.symm)
    · refine Or.inr ⟨f1.trans f2, ?_⟩
      rcases hab'' with k1 | ⟨m1, n1⟩ <;> rcases hbc'' with k2 | ⟨m2, n2⟩
      · exact Or.inl (k2.trans k1)
      · exact Or.inl (lt_of_eq_of_lt m2.symm k1)
      · exact Or.inl (lt_of_lt_of_eq k2 m1.symm)
      · exact Or.inr ⟨m1.trans m2, n1.trans n2⟩

theorem beats_total {a b : Record} (h : a.id ≠ b.id) : beats a b ∨ beats b a := by
  unfold beats
  rcases Nat.lt_trichotomy (fieldCount a) (fieldCount b) with h1 | h1 | h1
  · right; left; exact h1
  · rcases lt_trichotomy (ratingVal a) (ratingVal b) with h2 | h2 | h2
    · right; right; exact ⟨h1.symm, Or.inl h2⟩
    · have h3 : (b.lastSeen < a.lastSeen ∨ (a.lastSeen = b.lastSeen ∧ a.id < b.id))
          ∨ (a.lastSeen < b.lastSeen ∨ (b.lastSeen = a.lastSeen ∧ b.id < a.id)) := by
        rcases Nat.lt_trichotomy a.lastSeen b.lastSeen with h3 | h3 | h3
        · exact Or.inr (Or.inl h3)
        · rcases Nat.lt_trichotomy a.id b.id with h4 | h4 | h4
          · exact Or.inl (Or.inr ⟨h3, h4⟩)
          · exact absurd h4 h
          · exact Or.inr (Or.inr ⟨h3.symm, h4⟩)
        · exact Or.inl (Or.inl h3)
      rcases h3 with h3 | h3
      · left; right; exact ⟨h1, Or.inr ⟨h2, h3⟩⟩
      · right; right; exact ⟨h1.symm, Or.inr ⟨h2.symm, h3⟩⟩
    · left; right; exact ⟨h1, Or.inl h2⟩
  · left; left; exact h1

theorem pickPrimary_mem (p : Record) (l : List Record) : pickPrimary p l ∈ p :: l := by
  induction l generalizing p with
  | nil => simp [pickPrimary]
  | cons r rs ih =>
    unfold pickPrimary
    rcases List.mem_cons.1 (ih (if beats r p then r else p)) with h' | h'
    · rw [h']
      split_ifs
      · exact List.mem_cons_of_mem _ (List.mem_cons_self _ _)
      · exact List.mem_cons_self _ _
    · exact List.mem_cons_of_mem _ (List.mem_cons_of_mem _ h')

theorem pickPrimary_beats {p : Record} {l : List Record}
    (hnd : ((p :: l).map Record.id).Nodup) :
    ∀ q ∈ p :: l, q.id ≠ (pickPrimary p l).id → beats (pickPrimary p l) q := by
  induction l generalizing p with
  | nil =>
    intro q hq hne
    rcases List.mem_singleton.1 hq with rfl
    simp [pickPrimary] at hne
  | cons r rs ih =>
    intro q hq hne
    rw [List.map_cons, List.nodup_cons] at hnd
    unfold pickPrimary at hne ⊢
    by_cases hb : beats r p
    · rw [if_pos hb] at hne ⊢
      have hnd' : ((r :: rs).map Record.id).Nodup := hnd.2
      rcases List.mem_cons.1 hq with rfl | hq'
      · by_cases hpr : (pickPrimary r rs).id = r.id
        · have heq : pickPrimary r rs = r :=
            List.inj_on_of_nodup_map hnd' (pickPrimary_mem r rs) (List.mem_cons_self r rs) hpr
          rw [heq]
          exact hb
        · exact beats_trans
            (ih hnd' r (List.mem_cons_self _ _) (fun hh => hpr hh.symm)) hb
      · rcases List.mem_cons.1 hq' with rfl | hq''
        · exact ih hnd' q (List.mem_cons_self _ _) hne
        · exact ih hnd' q (List.mem_cons_of_mem _ hq'') hne
    · rw [if_neg hb] at hne ⊢
      have hnd' : ((p :: rs).map Record.id).Nodup := by
        rw [List.map_cons, List.nodup_cons]
        constructor
        · intro hmem
          exact hnd.1 (by rw [List.map_cons]; exact List.mem_cons_of_mem _ hmem)
        · have h2 := hnd.2
          rw [List.map_cons, List.nodup_cons] at h2
          exact h2.2
      rcases List.mem_cons.1 hq with rfl | hq'
      · exact ih hnd' q (List.mem_cons_self _ _) hne
      · rcases List.mem_cons.1 hq' with rfl | hq''
        · have hqp : q.id ≠ p.id := by
            intro hh
            exact hnd.1 (by rw [List.map_cons]; exact List.mem_cons.2 (Or.inl hh.symm))
          rcases beats_total (a := p) (b := q) (fun hh => hqp hh.symm) with hpq | hqp'
          · by_cases hpp : (pickPrimary p rs).id = p.id
            · have hq2 : pickPrimary p rs = p :=
                List.inj_on_of_nodup_map hnd' (pickPrimary_mem p rs)
                  (List.mem_cons_self p rs) hpp
              rw [hq2]
              exact hpq
            · exact beats_trans
                (ih hnd' p (List.mem_cons_self _ _) (fun hh => hpp hh.symm)) hpq
          · exact absurd hqp' hb
        · exact ih hnd' q (List.mem_cons_of_mem _ hq'') hne

theorem mergeStep_fst_id (acc : Record × List (String × RecId)) (x : Record) :
    (mergeStep acc x).1.id = acc.1.id := rfl

theorem foldl_mergeStep_fst_id (l : List Record) (acc : Record × List (String × RecId)) :
    (l.foldl mergeStep acc).1.id = acc.1.id := by
  induction l generalizing acc with
  | nil => rfl
  | cons x xs ih => rw [List.foldl_cons, ih, mergeStep_fst_id]

theorem mergeWithProv_fst_id (p : Record) (l : List Record) :
    (mergeWithProv p l).1.id = p.id :=
  foldl_mergeStep_fst_id l (p, [])

end Dedup

namespace Dedup

theorem beats_irrefl (a : Record) : ¬ beats a a := by
  unfold beats
  intro h
  rcases h with h | ⟨_, h⟩
  · exact lt_irrefl _ h
  · rcases h with h | ⟨_, h⟩
    · exact lt_irrefl _ h
    · rcases h with h | ⟨_, h⟩
      · exact lt_irrefl _ h
      · exact lt_irrefl _ h

/-- C7: Merge Resolver primary selection is deterministic: on any group
with no duplicate identifiers, `resolveList` succeeds, its primary
carries the identifier of `pickPrimary`, which is a member of the
group, strictly `beats` (most non-empty fields, then higher rating,
then most recently seen, then lowest identifier) every other member,
and is the unique such member — so two runs on the same group always
pick the same primary. -/
theorem resolve_primary_selection (r : Record) (rs : List Record)
    (hnd : ((r :: rs).map Record.id).Nodup) :
    ∃ d, resolveList (r :: rs) = some d
      ∧ d.primary.id = (pickPrimary r rs).id
      ∧ pickPrimary r rs ∈ r :: rs
      ∧ (∀ q ∈ r :: rs, q.id ≠ (pickPrimary r rs).id → beats (pickPrimary r rs) q)
      ∧ (∀ q ∈ r :: rs, (∀ q' ∈ r :: rs, q'.id ≠ q.id → beats q q') →
          q = pickPrimary r rs) := by
  refine ⟨_, rfl, mergeWithProv_fst_id _ _, pickPrimary_mem r rs, pickPrimary_beats hnd, ?_⟩
  intro q hq hdom
  by_contra hne
  have hid : q.id ≠ (pickPrimary r rs).id := fun hh =>
    hne (List.inj_on_of_nodup_map hnd hq (pickPrimary_mem r rs) hh)
  exact beats_irrefl q
    (beats_trans (hdom _ (pickPrimary_mem r rs) (fun hh => hid hh.symm))
      (pickPrimary_beats hnd q hq hid))

theorem resolve_primary_selection_witness :
    ∃ d, resolveList [mkRecord 5 "a" "b" "" "" "", mkRecord 3 "a" "" "" "" ""] = some d
      ∧ d.primary.id
          = (pickPrimary (mkRecord 5 "a" "b" "" "" "") [mkRecord 3 "a" "" "" "" ""]).id
      ∧ pickPrimary (mkRecord 5 "a" "b" "" "" "") [mkRecord 3 "a" "" "" "" ""]
          ∈ [mkRecord 5 "a" "b" "" "" "", mkRecord 3 "a" "" "" "" ""]
      ∧ (∀ q ∈ [mkRecord 5 "a" "b" "" "" "", mkRecord 3 "a" "" "" "" ""],
          q.id ≠ (pickPrimary (mkRecord 5 "a" "b" "" "" "") [mkRecord 3 "a" "" "" "" ""]).id →
          beats (pickPrimary (mkRecord 5 "a" "b" "" "" "") [mkRecord 3 "a" "" "" "" ""]) q)
      ∧ (∀ q ∈ [mkRecord 5 "a" "b" "" "" "", mkRecord 3 "a" "" "" "" ""],
          (∀ q' ∈ [mkRecord 5 "a" "b" "" "" "", mkRecord 3 "a" "" "" "" ""],
            q'.id ≠ q.id → beats q q') →
          q = pickPrimary (mkRecord 5 "a" "b" "" "" "") [mkRecord 3 "a" "" "" "" ""]) :=
  resolve_primary_selection (mkRecord 5 "a" "b" "" "" "") [mkRecord 3 "a" "" "" "" ""]
    (by decide)

/-- C8: an invalid configuration (weights that do not sum sensibly or a
threshold outside [0, 100]) fails the whole call with
`ConfigurationError` before any processing: for every input the result
is the bare error, no output is produced, and (the model being a pure
function of its input) the input is unchanged. -/
theorem run_config_error (cfg : Config) (input : List Record) (h : ¬ validConfig cfg) :
    run cfg input = Except.error DedupError.configurationError
      ∧ ∀ out, run cfg input ≠ Except.ok out := by
  unfold run
  rw [if_neg h]
  exact ⟨rfl, fun out hout => by cases hout⟩

theorem run_config_error_witness :
    ¬ validConfig ⟨defaultWeights, 150, 90, 70, 50⟩
    ∧ (run ⟨defaultWeights, 150, 90, 70, 50⟩ [mkRecord 1 "a" "" "" "" ""]
          = Except.error DedupError.configurationError
        ∧ ∀ out, run ⟨defaultWeights, 150, 90, 70, 50⟩ [mkRecord 1 "a" "" "" "" ""]
          ≠ Except.ok out) := by
  have h : ¬ validConfig ⟨defaultWeights, 150, 90, 70, 50⟩ :=
    of_decide_eq_true (by with_unfolding_all rfl)
  exact ⟨h, run_config_error _ _ h⟩

end Dedup

namespace Dedup

theorem mem_fuzzyMatches {cfg : Config} {input : List Record} {m : MatchResult}
    (hm : m ∈ fuzzyMatches cfg input) :
    ∃ a b, (a, b) ∈ allPairs (survivors input) ∧ m.idA = a.id ∧ m.idB = b.id
      ∧ ∃ c, Dedup.compare cfg.weights (normalize a) (normalize b) = some c
        ∧ cfg.threshold ≤ c ∧ classify cfg c ≠ Tier.none
        ∧ m.confidence = c ∧ m.tier = classify cfg c := by
  unfold fuzzyMatches at hm
  rcases List.mem_filterMap.1 hm with ⟨p, hp, hfc⟩
  unfold fuzzyCandidate at hfc
  rcases hcmp : Dedup.compare cfg.weights (normalize p.1) (normalize p.2) with _ | c
  · rw [hcmp] at hfc
    exact absurd hfc (by simp)
  · rw [hcmp] at hfc
    dsimp only at hfc
    by_cases hcond : cfg.threshold ≤ c ∧ classify cfg c ≠ Tier.none
    · rw [if_pos hcond] at hfc
      have hm' := Option.some.inj hfc
      subst hm'
      exact ⟨p.1, p.2, by simpa using hp, rfl, rfl, c, hcmp, hcond.1, hcond.2, rfl, rfl⟩
    · rw [if_neg hcond] at hfc
      exact absurd hfc (by simp)

theorem mem_exactMatchResults {input : List Record} {m : MatchResult}
    (hm : m ∈ exactMatchResults input) :
    ∃ g, g ∈ groupsOf input ∧ 2 ≤ g.length
      ∧ ∃ a b, (a, b) ∈ allPairs g ∧ m = exactMatch a b := by
  unfold exactMatchResults at hm
  rcases List.mem_flatten.1 hm with ⟨l, hl, hml⟩
  rcases List.mem_map.1 hl with ⟨g, hg, rfl⟩
  rcases List.mem_filter.1 hg with ⟨hg', hlen⟩
  rcases List.mem_map.1 hml with ⟨p, hp, rfl⟩
  exact ⟨g, hg', of_decide_eq_true hlen, p.1, p.2, by simpa using hp, rfl⟩

theorem reviewQueue_subset_fuzzyMatches {cfg : Config} {input : List Record} {m : MatchResult}
    (hm : m ∈ reviewQueueOf cfg input) :
    m ∈ fuzzyMatches cfg input
      ∧ (m.tier = Tier.medium ∨ m.tier = Tier.low)
      ∧ m.idA ∉ highMembers cfg input ∧ m.idB ∉ highMembers cfg input := by
  unfold reviewQueueOf at hm
  rcases List.mem_filter.1 hm with ⟨h1, h2⟩
  exact ⟨h1, of_decide_eq_true h2⟩

/-- C5 (amended): under the default tier boundaries the classifier maps
each confidence in [0, 100] to exactly one tier, with HIGH iff c ≥ 90,
MEDIUM iff 70 ≤ c < 90, LOW iff 50 ≤ c < 70 and NONE iff c < 50
(confidences are rationals, so the upper bounds of the middle bands
are strict bounds at 90 and 70, not the integer phrasing ≤ 89 / ≤ 69),
and NONE-tier pairs are never reported in any run's output. -/
theorem classify_tier_bands (c : ℚ) (h0 : 0 ≤ c) (h100 : c ≤ 100) :
    (classify defaultConfig c = Tier.high ↔ 90 ≤ c)
    ∧ (classify defaultConfig c = Tier.medium ↔ 70 ≤ c ∧ c < 90)
    ∧ (classify defaultConfig c = Tier.low ↔ 50 ≤ c ∧ c < 70)
    ∧ (classify defaultConfig c = Tier.none ↔ c < 50)
    ∧ (∀ cfg input m, m ∈ (runOutput cfg input).exactMatches → m.tier ≠ Tier.none)
    ∧ (∀ cfg input m, m ∈ (runOutput cfg input).fuzzyMatched → m.tier ≠ Tier.none)
    ∧ (∀ cfg input m, m ∈ (runOutput cfg input).reviewQueue → m.tier ≠ Tier.none) := by
  refine ⟨?_, ?_, ?_, ?_, ?_, ?_, ?_⟩
  · unfold classify defaultConfig
    split_ifs with g1 g2 g3 <;> simp_all <;>
      first
        | linarith
        | (constructor <;> linarith)
        | (intro h; linarith)
        | (intro h1 h2; linarith)
        | (rintro ⟨h1, h2⟩; linarith)
  · unfold classify defaultConfig
    split_ifs with g1 g2 g3 <;> simp_all <;>
      first
        | linarith
        | (constructor <;> linarith)
        | (intro h; linarith)
        | (intro h1 h2; linarith)
        | (rintro ⟨h1, h2⟩; linarith)
  · unfold classify defaultConfig
    split_ifs with g1 g2 g3 <;> simp_all <;>
      first
        | linarith
        | (constructor <;> linarith)
        | (intro h; linarith)
        | (intro h1 h2; linarith)
        | (rintro ⟨h1, h2⟩; linarith)
  · unfold classify defaultConfig
    split_ifs with g1 g2 g3 <;> simp_all <;>
      first
        | linarith
        | (constructor <;> linarith)
        | (intro h; linarith)
        | (intro h1 h2; linarith)
        | (rintro ⟨h1, h2⟩; linarith)
  · intro cfg input m hm
    rcases mem_exactMatchResults (by simpa [runOutput] using hm) with ⟨g, _, _, a, b, _, rfl⟩
    simp [exactMatch]
  · intro cfg input m hm
    rcases mem_fuzzyMatches (by simpa [runOutput] using hm)
      with ⟨a, b, _, _, _, c', _, _, hne, _, ht⟩
    rw [ht]
    exact hne
  · intro cfg input m hm
    have hm' := (reviewQueue_subset_fuzzyMatches (by simpa [runOutput] using hm)).2.1
    rcases hm' with h | h <;> rw [h] <;> simp

theorem classify_tier_bands_witness :
    ((0:ℚ) ≤ 95 ∧ (95:ℚ) ≤ 100)
    ∧ classify defaultConfig 95 = Tier.high := by
  have h := classify_tier_bands 95 (by norm_num) (by norm_num)
  exact ⟨⟨by norm_num, by norm_num⟩, h.1.2 (by norm_num)⟩

/-- C5 counterexample: the aggregate confidence 179/2 = 89.5 lies in
[0, 100] and is classified MEDIUM, yet it does not satisfy the claim's
band "MEDIUM iff 70 ≤ c ≤ 89", so the claim's integer-phrased
characterisation is false on the classifier. -/
theorem classify_tier_bands_cx :
    (0:ℚ) ≤ 179/2 ∧ (179:ℚ)/2 ≤ 100
    ∧ classify defaultConfig (179/2) = Tier.medium
    ∧ ¬ ((70:ℚ) ≤ 179/2 ∧ (179:ℚ)/2 ≤ 89) := by
  refine ⟨by norm_num, by norm_num, ?_, by norm_num⟩
  unfold classify defaultConfig
  norm_num

end Dedup

namespace Dedup

theorem simTokens_self {l : List String} (h : l ≠ []) : simTokens l l = 100 := by
  unfold simTokens jaccard
  rw [Finset.inter_self, Finset.union_self]
  have hc : ((l.toFinset.card : ℚ)) ≠ 0 := by
    have hne : l.toFinset ≠ ∅ := by
      simpa [List.toFinset_eq_empty_iff] using h
    exact Nat.cast_ne_zero.2 (Finset.card_ne_zero.2 (Finset.nonempty_iff_ne_empty.2 hne))
  rw [mul_div_assoc, div_self hc, mul_one]

theorem simExact_self (s : String) : simExact s s = 100 :=
  if_pos rfl

theorem sum_map_mul_100 :
    ∀ (es : List (String × ℚ × ℚ)), (∀ e ∈ es, e.2.2 = 100) →
      (es.map (fun e => e.2.1 * e.2.2)).sum = 100 * (es.map (fun e => e.2.1)).sum
  | [], _ => by simp
  | e :: es, h => by
    simp only [List.map_cons, List.sum_cons]
    rw [h e (List.mem_cons_self _ _),
      sum_map_mul_100 es (fun x hx => h x (List.mem_cons_of_mem _ hx))]
    ring

theorem compare_of_all_100 (w : Weights) (a b : NormalizedRecord)
    (hs : ∀ e ∈ fieldEntries w a b, e.2.2 = 100)
    (htw : ((fieldEntries w a b).map (fun e => e.2.1)).sum ≠ 0) :
    Dedup.compare w a b = some 100 := by
  unfold compare
  rw [if_neg htw]
  rw [sum_map_mul_100 _ hs, mul_div_assoc, div_self htw, mul_one]

theorem mem_fieldEntries {w : Weights} {a b : NormalizedRecord} {e : String × ℚ × ℚ}
    (he : e ∈ fieldEntries w a b) :
    (e = ("name", w.name, simTokens a.name b.name) ∧ a.name ≠ [] ∧ b.name ≠ [])
    ∨ (e = ("address", w.address, simTokens a.address b.address)
        ∧ a.address ≠ [] ∧ b.address ≠ [])
    ∨ (e = ("phone", w.phone, simExact a.phone b.phone) ∧ a.phone ≠ "" ∧ b.phone ≠ "")
    ∨ (e = ("email", w.email, simExact a.email b.email) ∧ a.email ≠ "" ∧ b.email ≠ "")
    ∨ (e = ("website", w.website, simExact a.website b.website)
        ∧ a.website ≠ "" ∧ b.website ≠ "") := by
  unfold fieldEntries at he
  rcases List.mem_append.1 he with he | he
  · rcases List.mem_append.1 he with he | he
    · rcases List.mem_append.1 he with he | he
      · rcases List.mem_append.1 he with he | he
        · split at he
          · exact Or.inl ⟨List.mem_singleton.1 he, by assumption⟩
          · simp at he
        · split at he
          · exact Or.inr (Or.inl ⟨List.mem_singleton.1 he, by assumption⟩)
          · simp at he
      · split at he
        · exact Or.inr (Or.inr (Or.inl ⟨List.mem_singleton.1 he, by assumption⟩))
        · simp at he
    · split at he
      · exact Or.inr (Or.inr (Or.inr (Or.inl ⟨List.mem_singleton.1 he, by assumption⟩)))
      · simp at he
  · split at he
    · exact Or.inr (Or.inr (Or.inr (Or.inr ⟨List.mem_singleton.1 he, by assumption⟩)))
    · simp at he

theorem name_entry_mem {w : Weights} {a b : NormalizedRecord}
    (h : a.name ≠ [] ∧ b.name ≠ []) :
    ("name", w.name, simTokens a.name b.name) ∈ fieldEntries w a b := by
  unfold fieldEntries
  refine List.mem_append.2 (Or.inl (List.mem_append.2 (Or.inl (List.mem_append.2 (Or.inl
    (List.mem_append.2 (Or.inl ?_)))))))
  rw [if_pos h]
  exact List.mem_singleton.2 rfl

theorem address_entry_mem {w : Weights} {a b : NormalizedRecord}
    (h : a.address ≠ [] ∧ b.address ≠ []) :
    ("address", w.address, simTokens a.address b.address) ∈ fieldEntries w a b := by
  unfold fieldEntries
  refine List.mem_append.2 (Or.inl (List.mem_append.2 (Or.inl (List.mem_append.2 (Or.inl
    (List.mem_append.2 (Or.inr ?_)))))))
  rw [if_pos h]
  exact List.mem_singleton.2 rfl

theorem email_entry_mem {w : Weights} {a b : NormalizedRecord}
    (h : a.email ≠ "" ∧ b.email ≠ "") :
    ("email", w.email, simExact a.email b.email) ∈ fieldEntries w a b := by
  unfold fieldEntries
  refine List.mem_append.2 (Or.inl (List.mem_append.2 (Or.inr ?_)))
  rw [if_pos h]
  exact List.mem_singleton.2 rfl

theorem defaultWeights_entry_nonneg {a b : NormalizedRecord} {e : String × ℚ × ℚ}
    (he : e ∈ fieldEntries defaultWeights a b) : 0 ≤ e.2.1 := by
  rcases mem_fieldEntries he with ⟨h, _⟩ | ⟨h, _⟩ | ⟨h, _⟩ | ⟨h, _⟩ | ⟨h, _⟩ <;>
    rw [h] <;> norm_num [defaultWeights]

theorem entries_total_ne_zero {a b : NormalizedRecord}
    (hp : (a.name ≠ [] ∧ b.name ≠ []) ∨ (a.address ≠ [] ∧ b.address ≠ [])
      ∨ (a.email ≠ "" ∧ b.email ≠ "")) :
    ((fieldEntries defaultWeights a b).map (fun e => e.2.1)).sum ≠ 0 := by
  have hpos : ∃ e ∈ fieldEntries defaultWeights a b, 0 < e.2.1 := by
    rcases hp with h | h | h
    · exact ⟨_, name_entry_mem h, by norm_num [defaultWeights]⟩
    · exact ⟨_, address_entry_mem h, by norm_num [defaultWeights]⟩
    · exact ⟨_, email_entry_mem h, by norm_num [defaultWeights]⟩
  rcases hpos with ⟨e, he, hpos⟩
  have hle : e.2.1 ≤ ((fieldEntries defaultWeights a b).map (fun e => e.2.1)).sum := by
    refine List.single_le_sum (fun x hx => ?_) _ (List.mem_map_of_mem _ he)
    rcases List.mem_map.1 hx with ⟨e', he', rfl⟩
    exact defaultWeights_entry_nonneg he'
  intro h0
  rw [h0] at hle
  linarith

/-- C4 (amended): missing-field neutrality of the fuzzy aggregate under
the default weights, provided the pair shares at least one
positively-weighted field other than phone (name, address or email):
comparing `a` against `a` without its phone number (phone excluded
from sum and denominator) gives the same aggregate as comparing the
otherwise identical pair in which both records carry the matching
phone, both being exactly 100.  The proviso is forced: a pair sharing
no positively-weighted non-phone field has undefined confidence once
the phone is missing (see the counterexample). -/
theorem compare_missing_phone_neutral (a : Record)
    (hp : (normalize a).name ≠ [] ∨ (normalize a).address ≠ [] ∨ (normalize a).email ≠ "") :
    Dedup.compare defaultWeights (normalize a) (normalize { a with phone := "" })
      = Dedup.compare defaultWeights (normalize a) (normalize a)
    ∧ Dedup.compare defaultWeights (normalize a) (normalize a) = some 100 := by
  have hnb : normalize { a with phone := "" }
      = { normalize a with phone := "" } := by
    unfold normalize
    simp [digitsOnly]
  have hsab : ∀ e ∈ fieldEntries defaultWeights (normalize a) (normalize { a with phone := "" }),
      e.2.2 = 100 := by
    intro e he
    rw [hnb] at he
    rcases mem_fieldEntries he with ⟨h, hc⟩ | ⟨h, hc⟩ | ⟨h, hc⟩ | ⟨h, hc⟩ | ⟨h, hc⟩ <;> rw [h]
    · exact simTokens_self hc.1
    · exact simTokens_self hc.1
    · exact absurd rfl hc.2
    · exact simExact_self _
    · exact simExact_self _
  have hsaa : ∀ e ∈ fieldEntries defaultWeights (normalize a) (normalize a), e.2.2 = 100 := by
    intro e he
    rcases mem_fieldEntries he with ⟨h, hc⟩ | ⟨h, hc⟩ | ⟨h, hc⟩ | ⟨h, hc⟩ | ⟨h, hc⟩ <;> rw [h]
    · exact simTokens_self hc.1
    · exact simTokens_self hc.1
    · exact simExact_self _
    · exact simExact_self _
    · exact simExact_self _
  have hp' : ((normalize a).name ≠ [] ∧ (normalize a).name ≠ [])
      ∨ ((normalize a).address ≠ [] ∧ (normalize a).address ≠ [])
      ∨ ((normalize a).email ≠ "" ∧ (normalize a).email ≠ "") := by
    rcases hp with h | h | h
    · exact Or.inl ⟨h, h⟩
    · exact Or.inr (Or.inl ⟨h, h⟩)
    · exact Or.inr (Or.inr ⟨h, h⟩)
  have htwaa := entries_total_ne_zero (a := normalize a) (b := normalize a) hp'
  have htwab : ((fieldEntries defaultWeights (normalize a)
      (normalize { a with phone := "" })).map (fun e => e.2.1)).sum ≠ 0 := by
    rw [hnb]
    exact entries_total_ne_zero hp'
  have h1 := compare_of_all_100 _ _ _ hsab htwab
  have h2 := compare_of_all_100 _ _ _ hsaa htwaa
  rw [h1, h2]
  exact ⟨rfl, rfl⟩

/-- C4 counterexample: for the record whose only comparable field is
its phone number, the pair (A, A without phone) has undefined
confidence (no shared weighted field), while the otherwise identical
pair carrying the matching phone scores 100 — so the claim, quantified
over every such pair, is false. -/
theorem compare_missing_phone_cx :
    Dedup.compare defaultWeights (normalize (mkRecord 1 "" "" "5551234" "" ""))
        (normalize { mkRecord 1 "" "" "5551234" "" "" with phone := "" })
      ≠ Dedup.compare defaultWeights (normalize (mkRecord 1 "" "" "5551234" "" ""))
        (normalize (mkRecord 1 "" "" "5551234" "" "")) :=
  of_decide_eq_true (by with_unfolding_all rfl)

theorem compare_missing_phone_neutral_witness :
    ((normalize (mkRecord 1 "ab" "" "5551234" "" "")).name ≠ []
      ∨ (normalize (mkRecord 1 "ab" "" "5551234" "" "")).address ≠ []
      ∨ (normalize (mkRecord 1 "ab" "" "5551234" "" "")).email ≠ "")
    ∧ (Dedup.compare defaultWeights (normalize (mkRecord 1 "ab" "" "5551234" "" ""))
          (normalize { mkRecord 1 "ab" "" "5551234" "" "" with phone := "" })
        = Dedup.compare defaultWeights (normalize (mkRecord 1 "ab" "" "5551234" "" ""))
          (normalize (mkRecord 1 "ab" "" "5551234" "" ""))
      ∧ Dedup.compare defaultWeights (normalize (mkRecord 1 "ab" "" "5551234" "" ""))
          (normalize (mkRecord 1 "ab" "" "5551234" "" "")) = some 100) := by
  have hp : (normalize (mkRecord 1 "ab" "" "5551234" "" "")).name ≠ []
      ∨ (normalize (mkRecord 1 "ab" "" "5551234" "" "")).address ≠ []
      ∨ (normalize (mkRecord 1 "ab" "" "5551234" "" "")).email ≠ "" :=
    Or.inl (of_decide_eq_true (by with_unfolding_all rfl))
  exact ⟨hp, compare_missing_phone_neutral (mkRecord 1 "ab" "" "5551234" "" "") hp⟩

end Dedup

namespace Dedup

theorem idDisj_symm : Symmetric idDisj :=
  fun _ _ h x hx hy => h x hy hx

theorem insertEdge_pairwise {cs : List (List RecId)} (h : cs.Pairwise idDisj) (a b : RecId) :
    (insertEdge cs a b).Pairwise idDisj := by
  unfold insertEdge
  rw [List.pairwise_cons]
  constructor
  · intro d hd x hx hxd
    rcases List.mem_filter.1 hd with ⟨hdcs, hdcond⟩
    have hdcond' : ¬ (a ∈ d ∨ b ∈ d) := of_decide_eq_true hdcond
    rcases List.mem_cons.1 hx with rfl | hx
    · exact hdcond' (Or.inl hxd)
    rcases List.mem_cons.1 hx with rfl | hx
    · exact hdcond' (Or.inr hxd)
    rcases List.mem_flatten.1 hx with ⟨t, ht, hxt⟩
    rcases List.mem_filter.1 ht with ⟨htcs, htcond⟩
    have htcond' : a ∈ t ∨ b ∈ t := of_decide_eq_true htcond
    have htd : t ≠ d := fun hh => hdcond' (hh ▸ htcond')
    exact h.forall idDisj_symm htcs hdcs htd x hxt hxd
  · exact List.Pairwise.sublist (List.filter_sublist _) h

theorem insertEdge_ne_nil {cs : List (List RecId)} (h : ∀ c ∈ cs, c ≠ []) (a b : RecId) :
    ∀ c ∈ insertEdge cs a b, c ≠ [] := by
  intro c hc
  rcases List.mem_cons.1 hc with rfl | hc
  · simp
  · exact h c (List.mem_filter.1 hc).1

theorem insertEdge_mem_src {cs : List (List RecId)} {a b : RecId} :
    ∀ c ∈ insertEdge cs a b, ∀ x ∈ c, x = a ∨ x = b ∨ ∃ c' ∈ cs, x ∈ c' := by
  intro c hc x hx
  rcases List.mem_cons.1 hc with rfl | hc
  · rcases List.mem_cons.1 hx with rfl | hx
    · exact Or.inl rfl
    rcases List.mem_cons.1 hx with rfl | hx
    · exact Or.inr (Or.inl rfl)
    rcases List.mem_flatten.1 hx with ⟨t, ht, hxt⟩
    exact Or.inr (Or.inr ⟨t, (List.mem_filter.1 ht).1, hxt⟩)
  · exact Or.inr (Or.inr ⟨c, (List.mem_filter.1 hc).1, hx⟩)

theorem insertEdge_cover {cs : List (List RecId)} {a b : RecId} :
    ∀ c ∈ cs, ∃ c' ∈ insertEdge cs a b, ∀ x ∈ c, x ∈ c' := by
  intro c hc
  by_cases htouch : a ∈ c ∨ b ∈ c
  · refine ⟨_, List.mem_cons_self _ _, ?_⟩
    intro x hx
    exact List.mem_cons_of_mem _ (List.mem_cons_of_mem _
      (List.mem_flatten.2 ⟨c, List.mem_filter.2 ⟨hc, decide_eq_true htouch⟩, hx⟩))
  · exact ⟨c, List.mem_cons_of_mem _ (List.mem_filter.2 ⟨hc, decide_eq_true htouch⟩),
      fun _ hx => hx⟩

theorem insertEdge_contains_edge (cs : List (List RecId)) (a b : RecId) :
    ∃ c ∈ insertEdge cs a b, a ∈ c ∧ b ∈ c :=
  ⟨_, List.mem_cons_self _ _, List.mem_cons_self _ _,
    List.mem_cons_of_mem _ (List.mem_cons_self _ _)⟩

theorem componentsAux_pairwise :
    ∀ (es : List (RecId × RecId)) (cs : List (List RecId)),
      cs.Pairwise idDisj → (componentsAux es cs).Pairwise idDisj
  | [], _, h => h
  | e :: es, cs, h => componentsAux_pairwise es _ (insertEdge_pairwise h e.1 e.2)

theorem componentsAux_ne_nil :
    ∀ (es : List (RecId × RecId)) (cs : List (List RecId)),
      (∀ c ∈ cs, c ≠ []) → ∀ c ∈ componentsAux es cs, c ≠ []
  | [], _, h => h
  | e :: es, cs, h => componentsAux_ne_nil es _ (insertEdge_ne_nil h e.1 e.2)

theorem componentsAux_mem_src :
    ∀ (es : List (RecId × RecId)) (cs : List (List RecId)),
      ∀ c ∈ componentsAux es cs, ∀ x ∈ c,
        (∃ c' ∈ cs, x ∈ c') ∨ ∃ e ∈ es, x = e.1 ∨ x = e.2
  | [], _ => fun c hc x hx => Or.inl ⟨c, hc, hx⟩
  | e :: es, cs => fun c hc x hx => by
    rcases componentsAux_mem_src es (insertEdge cs e.1 e.2) c hc x hx with
      ⟨c', hc', hxc⟩ | ⟨e', he', hor⟩
    · rcases insertEdge_mem_src c' hc' x hxc with h | h | ⟨c'', hc'', hxc''⟩
      · exact Or.inr ⟨e, List.mem_cons_self _ _, Or.inl h⟩
      · exact Or.inr ⟨e, List.mem_cons_self _ _, Or.inr h⟩
      · exact Or.inl ⟨c'', hc'', hxc''⟩
    · exact Or.inr ⟨e', List.mem_cons_of_mem _ he', hor⟩

theorem componentsAux_cover :
    ∀ (es : List (RecId × RecId)) (cs : List (List RecId)),
      ∀ c ∈ cs, ∃ c' ∈ componentsAux es cs, ∀ x ∈ c, x ∈ c'
  | [], _ => fun c hc => ⟨c, hc, fun _ hx => hx⟩
  | e :: es, cs => fun c hc => by
    rcases insertEdge_cover (a := e.1) (b := e.2) c hc with ⟨c₁, hc₁, hsub₁⟩
    rcases componentsAux_cover es (insertEdge cs e.1 e.2) c₁ hc₁ with ⟨c₂, hc₂, hsub₂⟩
    exact ⟨c₂, hc₂, fun x hx => hsub₂ x (hsub₁ x hx)⟩

theorem componentsAux_edge :
    ∀ (es : List (RecId × RecId)) (cs : List (List RecId)),
      ∀ e ∈ es, ∃ c ∈ componentsAux es cs, e.1 ∈ c ∧ e.2 ∈ c
  | [], _ => by simp
  | e :: es, cs => fun e' he' => by
    rcases List.mem_cons.1 he' with rfl | he''
    · rcases insertEdge_contains_edge cs e'.1 e'.2 with ⟨c, hc, h1, h2⟩
      rcases componentsAux_cover es _ c hc with ⟨c₂, hc₂, hsub⟩
      exact ⟨c₂, hc₂, hsub _ h1, hsub _ h2⟩
    · exact componentsAux_edge es _ e' he''

theorem components_pairwise (es : List (RecId × RecId)) :
    (components es).Pairwise idDisj :=
  componentsAux_pairwise es [] List.Pairwise.nil

theorem components_ne_nil (es : List (RecId × RecId)) :
    ∀ c ∈ components es, c ≠ [] :=
  componentsAux_ne_nil es [] (by simp)

theorem components_mem_src (es : List (RecId × RecId)) :
    ∀ c ∈ components es, ∀ x ∈ c, ∃ e ∈ es, x = e.1 ∨ x = e.2 := by
  intro c hc x hx
  rcases componentsAux_mem_src es [] c hc x hx with ⟨c', hc', _⟩ | h
  · simp at hc'
  · exact h

theorem components_edge (es : List (RecId × RecId)) :
    ∀ e ∈ es, ∃ c ∈ components es, e.1 ∈ c ∧ e.2 ∈ c :=
  componentsAux_edge es []

theorem comps_pairwise (cfg : Config) (input : List Record) :
    (comps cfg input).Pairwise idDisj := by
  unfold comps
  refine List.pairwise_map.2 ((components_pairwise _).imp ?_)
  intro c d h x hx hxd
  exact h x (List.mem_dedup.1 hx) (List.mem_dedup.1 hxd)

theorem comps_ne_nil {cfg : Config} {input : List Record} :
    ∀ c ∈ comps cfg input, c ≠ [] := by
  intro c hc
  unfold comps at hc
  rcases List.mem_map.1 hc with ⟨c', hc', rfl⟩
  intro h
  exact components_ne_nil _ _ hc' ((List.dedup_eq_nil _).1 h)

theorem comps_mem_src {cfg : Config} {input : List Record} :
    ∀ c ∈ comps cfg input, ∀ x ∈ c, ∃ e ∈ highEdges cfg input, x = e.1 ∨ x = e.2 := by
  intro c hc x hx
  unfold comps at hc
  rcases List.mem_map.1 hc with ⟨c', hc', rfl⟩
  exact components_mem_src _ c' hc' x (List.mem_dedup.1 hx)

theorem comps_edge {cfg : Config} {input : List Record} :
    ∀ e ∈ highEdges cfg input, ∃ c ∈ comps cfg input, e.1 ∈ c ∧ e.2 ∈ c := by
  intro e he
  rcases components_edge _ e he with ⟨c, hc, h1, h2⟩
  exact ⟨c.dedup, List.mem_map_of_mem _ hc, List.mem_dedup.2 h1, List.mem_dedup.2 h2⟩

end Dedup

namespace Dedup

theorem allPairs_sublist {x y : α} : ∀ {l : List α}, (x, y) ∈ allPairs l → [x, y].Sublist l := by
  intro l
  induction l with
  | nil => intro h; simp [allPairs] at h
  | cons a l ih =>
    intro h
    unfold allPairs at h
    rcases List.mem_append.1 h with h | h
    · rcases List.mem_map.1 h with ⟨z, hz, hzz⟩
      cases hzz
      exact List.Sublist.cons₂ _ (List.singleton_sublist.2 hz)
    · exact List.Sublist.cons _ (ih h)

theorem mem_allPairs {x y : α} : ∀ {l : List α}, x ∈ l → y ∈ l → x ≠ y →
    (x, y) ∈ allPairs l ∨ (y, x) ∈ allPairs l := by
  intro l
  induction l with
  | nil => intro h; simp at h
  | cons a l ih =>
    intro hx hy hne
    unfold allPairs
    rcases List.mem_cons.1 hx with hxa | hxl
    · have hyl : y ∈ l := by
        rcases List.mem_cons.1 hy with hya | hyl
        · exact absurd (hxa.trans hya.symm) hne
        · exact hyl
      subst hxa
      exact Or.inl (List.mem_append.2 (Or.inl (List.mem_map_of_mem _ hyl)))
    · rcases List.mem_cons.1 hy with hya | hyl
      · subst hya
        exact Or.inr (List.mem_append.2 (Or.inl (List.mem_map_of_mem _ hxl)))
      · rcases ih hxl hyl hne with h | h
        · exact Or.inl (List.mem_append.2 (Or.inr h))
        · exact Or.inr (List.mem_append.2 (Or.inr h))

theorem two_le_length_of_mem_ne {l : List α} {a b : α}
    (ha : a ∈ l) (hb : b ∈ l) (hne : a ≠ b) : 2 ≤ l.length := by
  match l with
  | [] => simp at ha
  | [x] =>
    rcases List.mem_singleton.1 ha with rfl
    rcases List.mem_singleton.1 hb with rfl
    exact absurd rfl hne
  | x :: y :: t => simp [List.length_cons]

theorem goodRecords_sublist (input : List Record) :
    (goodRecords input).Sublist input :=
  List.filter_sublist _

theorem goodRecords_nodup_ids {input : List Record}
    (hnd : (input.map Record.id).Nodup) :
    ((goodRecords input).map Record.id).Nodup :=
  hnd.sublist ((goodRecords_sublist input).map _)

theorem goodRecords_eq_self {input : List Record}
    (hv : ∀ r ∈ input, validRecord r) : goodRecords input = input := by
  unfold goodRecords
  exact List.filter_eq_self.2 (fun r hr => decide_eq_true (hv r hr))

theorem mem_groupsOf_self {input : List Record} {r : Record} (hr : r ∈ goodRecords input) :
    ∃ g ∈ groupsOf input,
      r ∈ g ∧ g = (goodRecords input).filter (fun q => decide (recKey q = recKey r)) := by
  refine ⟨_, ?_, ?_, rfl⟩
  · unfold groupsOf dedupKeys
    exact List.mem_map_of_mem _ (List.mem_dedup.2 (List.mem_map_of_mem _ hr))
  · exact List.mem_filter.2 ⟨hr, decide_eq_true rfl⟩

theorem groupsOf_spec {input : List Record} {g : List Record} (hg : g ∈ groupsOf input) :
    ∃ k, g = (goodRecords input).filter (fun r => decide (recKey r = k))
      ∧ g ≠ [] ∧ ∀ r ∈ g, r ∈ goodRecords input ∧ recKey r = k := by
  unfold groupsOf at hg
  rcases List.mem_map.1 hg with ⟨k, hk, rfl⟩
  refine ⟨k, rfl, ?_, ?_⟩
  · unfold dedupKeys at hk
    rcases List.mem_map.1 (List.mem_dedup.1 hk) with ⟨r, hr, rfl⟩
    intro hnil
    have : r ∈ (goodRecords input).filter (fun q => decide (recKey q = recKey r)) :=
      List.mem_filter.2 ⟨hr, decide_eq_true rfl⟩
    rw [hnil] at this
    simp at this
  · intro r hr
    rcases List.mem_filter.1 hr with ⟨h1, h2⟩
    exact ⟨h1, of_decide_eq_true h2⟩

/-- Distinct groups have disjoint identifier sets. -/
theorem groupsOf_pairwise {input : List Record} (hnd : (input.map Record.id).Nodup) :
    (groupsOf input).Pairwise
      (fun g₁ g₂ => ∀ i, i ∈ g₁.map Record.id → i ∉ g₂.map Record.id) := by
  have hgood := goodRecords_nodup_ids hnd
  unfold groupsOf
  refine List.pairwise_map.2 ?_
  have hkeys : (dedupKeys input).Nodup := List.nodup_dedup _
  refine hkeys.imp ?_
  intro k₁ k₂ hne i h1 h2
  rcases List.mem_map.1 h1 with ⟨r₁, hr₁, rfl⟩
  rcases List.mem_map.1 h2 with ⟨r₂, hr₂, hid⟩
  rcases List.mem_filter.1 hr₁ with ⟨hg₁, hk₁⟩
  rcases List.mem_filter.1 hr₂ with ⟨hg₂, hk₂⟩
  have : r₂ = r₁ := List.inj_on_of_nodup_map hgood hg₂ hg₁ hid
  subst this
  exact hne ((of_decide_eq_true hk₁).symm.trans (of_decide_eq_true hk₂))

/-- Relation form of `Pairwise` for symmetric relations, applied to two
distinct members. -/
theorem pairwise_forall_ne {α : Type _} {R : α → α → Prop}
    (hsym : ∀ {a b : α}, R a b → R b a) {l : List α} (h : l.Pairwise R)
    {a b : α} (ha : a ∈ l) (hb : b ∈ l) (hne : a ≠ b) : R a b :=
  List.Pairwise.forall (fun _ _ hr => hsym hr) h ha hb hne

/-- Two groups sharing a member identifier are the same group. -/
theorem groupsOf_eq_of_shared_id {input : List Record}
    (hnd : (input.map Record.id).Nodup) {g₁ g₂ : List Record}
    (h₁ : g₁ ∈ groupsOf input) (h₂ : g₂ ∈ groupsOf input) {i : RecId}
    (hi₁ : i ∈ g₁.map Record.id) (hi₂ : i ∈ g₂.map Record.id) : g₁ = g₂ := by
  by_contra hne
  exact pairwise_forall_ne (fun h j hj hj' => h j hj' hj)
    (groupsOf_pairwise hnd) h₁ h₂ hne i hi₁ hi₂

theorem resolveList_spec (r : Record) (rs : List Record) :
    ∃ d, resolveList (r :: rs) = some d
      ∧ d.primary.id = (pickPrimary r rs).id
      ∧ d.subsumed
          = ((r :: rs).filter
              (fun q => decide (q.id ≠ (pickPrimary r rs).id))).map Record.id :=
  ⟨_, rfl, mergeWithProv_fst_id _ _, rfl⟩

theorem resolveList_of_ne_nil {g : List Record} (h : g ≠ []) :
    ∃ d, resolveList g = some d
      ∧ d.primary.id ∈ g.map Record.id
      ∧ (∀ i, i ∈ d.subsumed ↔ i ∈ g.map Record.id ∧ i ≠ d.primary.id) := by
  match g, h with
  | r :: rs, _ =>
    rcases resolveList_spec r rs with ⟨d, hd, hpid, hsub⟩
    refine ⟨d, hd, ?_, ?_⟩
    · rw [hpid]
      exact List.mem_map_of_mem _ (pickPrimary_mem r rs)
    · intro i
      rw [hsub, hpid]
      constructor
      · intro hi
        rcases List.mem_map.1 hi with ⟨q, hq, rfl⟩
        rcases List.mem_filter.1 hq with ⟨hq1, hq2⟩
        exact ⟨List.mem_map_of_mem _ hq1, of_decide_eq_true hq2⟩
      · rintro ⟨hi, hne⟩
        rcases List.mem_map.1 hi with ⟨q, hq, rfl⟩
        exact List.mem_map_of_mem _ (List.mem_filter.2 ⟨hq, decide_eq_true hne⟩)

/-- Membership view of the survivor list. -/
theorem mem_survivors {input : List Record} {s : Record} :
    s ∈ survivors input
      ↔ ∃ g ∈ groupsOf input, ∃ d, resolveList g = some d ∧ s = d.primary := by
  unfold survivors
  rw [List.mem_filterMap]
  constructor
  · rintro ⟨g, hg, hgs⟩
    rcases hod : resolveList g with _ | d
    · rw [hod] at hgs; simp at hgs
    · rw [hod] at hgs
      simp only [Option.map_some'] at hgs
      exact ⟨g, hg, d, hod, (Option.some.inj hgs).symm⟩
  · rintro ⟨g, hg, d, hd, rfl⟩
    exact ⟨g, hg, by rw [hd]; rfl⟩

theorem survivors_nodup_ids {input : List Record}
    (hnd : (input.map Record.id).Nodup) :
    ((survivors input).map Record.id).Nodup := by
  refine List.pairwise_map.2 ?_
  unfold survivors
  rw [List.pairwise_filterMap]
  refine (groupsOf_pairwise hnd).imp ?_
  intro g₁ g₂ hdisj s₁ hs₁ s₂ hs₂
  rcases hod₁ : resolveList g₁ with _ | d₁
  · rw [hod₁] at hs₁; simp at hs₁
  rcases hod₂ : resolveList g₂ with _ | d₂
  · rw [hod₂] at hs₂; simp at hs₂
  rw [hod₁] at hs₁
  rw [hod₂] at hs₂
  simp only [Option.map_some', Option.mem_def, Option.some.injEq] at hs₁ hs₂
  subst hs₁
  subst hs₂
  have hg₁ : g₁ ≠ [] := by
    intro hh
    rw [hh] at hod₁
    simp [resolveList] at hod₁
  have hg₂ : g₂ ≠ [] := by
    intro hh
    rw [hh] at hod₂
    simp [resolveList] at hod₂
  rcases resolveList_of_ne_nil hg₁ with ⟨e₁, he₁, hp₁, _⟩
  rcases resolveList_of_ne_nil hg₂ with ⟨e₂, he₂, hp₂, _⟩
  rw [hod₁] at he₁
  rw [hod₂] at he₂
  obtain rfl := Option.some.inj he₁
  obtain rfl := Option.some.inj he₂
  intro hh
  exact hdisj _ hp₁ (hh ▸ hp₂)

end Dedup

namespace Dedup

theorem resolveList_some_spec {g : List Record} {d : MergeDecision}
    (hd : resolveList g = some d) :
    d.primary.id ∈ g.map Record.id
      ∧ ∀ i, i ∈ d.subsumed ↔ i ∈ g.map Record.id ∧ i ≠ d.primary.id := by
  have hne : g ≠ [] := by
    intro h
    rw [h] at hd
    simp [resolveList] at hd
  rcases resolveList_of_ne_nil hne with ⟨d', hd', h1, h2⟩
  rw [hd] at hd'
  obtain rfl := Option.some.inj hd'
  exact ⟨h1, h2⟩

theorem mem_exactDecisions {input : List Record} {d : MergeDecision} :
    d ∈ exactDecisions input
      ↔ ∃ g ∈ groupsOf input, 2 ≤ g.length ∧ resolveList g = some d := by
  unfold exactDecisions
  rw [List.mem_filterMap]
  constructor
  · rintro ⟨g, hg, hgd⟩
    by_cases hlen : 2 ≤ g.length
    · rw [if_pos hlen] at hgd
      exact ⟨g, hg, hlen, hgd⟩
    · rw [if_neg hlen] at hgd
      cases hgd
  · rintro ⟨g, hg, hlen, hgd⟩
    exact ⟨g, hg, by rw [if_pos hlen]; exact hgd⟩

theorem mem_exactSubsumedIds {input : List Record} {i : RecId} :
    i ∈ exactSubsumedIds input ↔ ∃ d ∈ exactDecisions input, i ∈ d.subsumed := by
  unfold exactSubsumedIds
  rw [List.mem_flatten]
  constructor
  · rintro ⟨l, hl, hil⟩
    rcases List.mem_map.1 hl with ⟨d, hd, rfl⟩
    exact ⟨d, hd, hil⟩
  · rintro ⟨d, hd, hid⟩
    exact ⟨d.subsumed, List.mem_map_of_mem _ hd, hid⟩

/-- The resolved decision of the key group of a given good record. -/
theorem group_decision_of_good {input : List Record} {r : Record}
    (hr : r ∈ goodRecords input) :
    ∃ g ∈ groupsOf input, r ∈ g ∧ ∃ d, resolveList g = some d := by
  rcases mem_groupsOf_self hr with ⟨g, hg, hrg, _⟩
  have hne : g ≠ [] := List.ne_nil_of_mem hrg
  rcases resolveList_of_ne_nil hne with ⟨d, hd, _, _⟩
  exact ⟨g, hg, hrg, d, hd⟩

/-- A survivor identifier never appears among the exact-pass subsumed
identifiers. -/
theorem survivor_not_exactSubsumed {input : List Record}
    (hnd : (input.map Record.id).Nodup) {i : RecId}
    (hs : i ∈ (survivors input).map Record.id) : i ∉ exactSubsumedIds input := by
  intro hex
  rcases List.mem_map.1 hs with ⟨s, hs', rfl⟩
  rcases mem_survivors.1 hs' with ⟨g, hg, d, hd, rfl⟩
  rcases mem_exactSubsumedIds.1 hex with ⟨d', hd', hsub⟩
  rcases mem_exactDecisions.1 hd' with ⟨g', hg', _, hd'2⟩
  rcases resolveList_some_spec hd with ⟨hpid, _⟩
  rcases resolveList_some_spec hd'2 with ⟨_, hsubiff⟩
  rcases (hsubiff _).1 hsub with ⟨hin', hne'⟩
  have hgeq : g = g' := groupsOf_eq_of_shared_id hnd hg hg' hpid hin'
  subst hgeq
  rw [hd] at hd'2
  obtain rfl := Option.some.inj hd'2
  exact hne' rfl

/-- Every good identifier is a survivor identifier or an exact-pass
subsumed identifier. -/
theorem good_id_cover {input : List Record} {i : RecId}
    (hi : i ∈ (goodRecords input).map Record.id) :
    i ∈ (survivors input).map Record.id ∨ i ∈ exactSubsumedIds input := by
  rcases List.mem_map.1 hi with ⟨r, hr, rfl⟩
  rcases group_decision_of_good hr with ⟨g, hg, hrg, d, hd⟩
  rcases resolveList_some_spec hd with ⟨hpid, hsubiff⟩
  by_cases hp : r.id = d.primary.id
  · left
    rw [hp]
    exact List.mem_map_of_mem _ (mem_survivors.2 ⟨g, hg, d, hd, rfl⟩)
  · right
    refine mem_exactSubsumedIds.2 ⟨d, ?_, (hsubiff _).2 ⟨List.mem_map_of_mem _ hrg, hp⟩⟩
    refine mem_exactDecisions.2 ⟨g, hg, ?_, hd⟩
    rcases List.mem_map.1 hpid with ⟨q, hqg, hq⟩
    exact two_le_length_of_mem_ne hqg hrg (fun hh => hp (by rw [← hq, ← hh]))

/-- Identifiers of survivors lie among the good identifiers. -/
theorem survivorIds_subset_good {input : List Record} {i : RecId}
    (hi : i ∈ (survivors input).map Record.id) :
    i ∈ (goodRecords input).map Record.id := by
  rcases List.mem_map.1 hi with ⟨s, hs, rfl⟩
  rcases mem_survivors.1 hs with ⟨g, hg, d, hd, rfl⟩
  rcases resolveList_some_spec hd with ⟨hpid, _⟩
  rcases groupsOf_spec hg with ⟨k, _, _, hmem⟩
  rcases List.mem_map.1 hpid with ⟨q, hq, hqid⟩
  rw [← hqid]
  exact List.mem_map_of_mem _ (hmem q hq).1

theorem exactSubsumedIds_subset_good {input : List Record} {i : RecId}
    (hi : i ∈ exactSubsumedIds input) :
    i ∈ (goodRecords input).map Record.id := by
  rcases mem_exactSubsumedIds.1 hi with ⟨d, hd, hsub⟩
  rcases mem_exactDecisions.1 hd with ⟨g, hg, _, hd2⟩
  rcases resolveList_some_spec hd2 with ⟨_, hsubiff⟩
  rcases (hsubiff _).1 hsub with ⟨hin, _⟩
  rcases groupsOf_spec hg with ⟨k, _, _, hmem⟩
  rcases List.mem_map.1 hin with ⟨q, hq, hqid⟩
  rw [← hqid]
  exact List.mem_map_of_mem _ (hmem q hq).1

theorem exactDecisions_pairwise {input : List Record}
    (hnd : (input.map Record.id).Nodup) :
    (exactDecisions input).Pairwise subDisj := by
  unfold exactDecisions
  rw [List.pairwise_filterMap]
  refine (groupsOf_pairwise hnd).imp ?_
  intro g₁ g₂ hdisj d₁ hd₁ d₂ hd₂ i h1 h2
  rw [Option.mem_def] at hd₁ hd₂
  have hr₁ : resolveList g₁ = some d₁ := by
    by_cases hlen : 2 ≤ g₁.length
    · rwa [if_pos hlen] at hd₁
    · rw [if_neg hlen] at hd₁; cases hd₁
  have hr₂ : resolveList g₂ = some d₂ := by
    by_cases hlen : 2 ≤ g₂.length
    · rwa [if_pos hlen] at hd₂
    · rw [if_neg hlen] at hd₂; cases hd₂
  rcases resolveList_some_spec hr₁ with ⟨_, hs₁⟩
  rcases resolveList_some_spec hr₂ with ⟨_, hs₂⟩
  exact hdisj i ((hs₁ _).1 h1).1 ((hs₂ _).1 h2).1

end Dedup

namespace Dedup

theorem fuzzyMatches_ids {cfg : Config} {input : List Record} {m : MatchResult}
    (hm : m ∈ fuzzyMatches cfg input) :
    m.idA ∈ (survivors input).map Record.id
      ∧ m.idB ∈ (survivors input).map Record.id := by
  rcases mem_fuzzyMatches hm with ⟨a, b, hp, hA, hB, _⟩
  have hsub := allPairs_sublist hp
  have ha : a ∈ survivors input := hsub.subset (List.mem_cons_self _ _)
  have hb : b ∈ survivors input :=
    hsub.subset (List.mem_cons_of_mem _ (List.mem_singleton.2 rfl))
  rw [hA, hB]
  exact ⟨List.mem_map_of_mem _ ha, List.mem_map_of_mem _ hb⟩

theorem fuzzyMatches_ids_ne {cfg : Config} {input : List Record} {m : MatchResult}
    (hnd : (input.map Record.id).Nodup) (hm : m ∈ fuzzyMatches cfg input) :
    m.idA ≠ m.idB := by
  rcases mem_fuzzyMatches hm with ⟨a, b, hp, hA, hB, _⟩
  have hsub := (allPairs_sublist hp).map Record.id
  have hnd2 := (survivors_nodup_ids hnd).sublist hsub
  simp only [List.map_cons, List.map_nil, List.nodup_cons, List.mem_singleton] at hnd2
  rw [hA, hB]
  exact fun hh => hnd2.1 (by simpa using hh)

theorem highEdges_mem {cfg : Config} {input : List Record} {e : RecId × RecId}
    (he : e ∈ highEdges cfg input) :
    ∃ m ∈ fuzzyMatches cfg input, m.tier = Tier.high ∧ e = (m.idA, m.idB) := by
  unfold highEdges at he
  rcases List.mem_map.1 he with ⟨m, hm, rfl⟩
  rcases List.mem_filter.1 hm with ⟨h1, h2⟩
  exact ⟨m, h1, of_decide_eq_true h2, rfl⟩

theorem comps_mem_survivorIds {cfg : Config} {input : List Record} :
    ∀ c ∈ comps cfg input, ∀ x ∈ c, x ∈ (survivors input).map Record.id := by
  intro c hc x hx
  rcases comps_mem_src c hc x hx with ⟨e, he, hor⟩
  rcases highEdges_mem he with ⟨m, hm, _, rfl⟩
  rcases fuzzyMatches_ids hm with ⟨hA, hB⟩
  rcases hor with rfl | rfl
  · exact hA
  · exact hB

theorem mem_filter_survivors_ids {input : List Record} {c : List RecId} {i : RecId} :
    i ∈ (((survivors input).filter (fun r => decide (r.id ∈ c))).map Record.id)
      ↔ i ∈ (survivors input).map Record.id ∧ i ∈ c := by
  constructor
  · intro h
    rcases List.mem_map.1 h with ⟨s, hs, rfl⟩
    rcases List.mem_filter.1 hs with ⟨h1, h2⟩
    exact ⟨List.mem_map_of_mem _ h1, of_decide_eq_true h2⟩
  · rintro ⟨h1, h2⟩
    rcases List.mem_map.1 h1 with ⟨s, hs, rfl⟩
    exact List.mem_map_of_mem _ (List.mem_filter.2 ⟨hs, decide_eq_true h2⟩)

theorem mem_fuzzyDecisions {cfg : Config} {input : List Record} {d : MergeDecision} :
    d ∈ fuzzyDecisions cfg input
      ↔ ∃ c ∈ comps cfg input,
          resolveList ((survivors input).filter (fun r => decide (r.id ∈ c))) = some d := by
  unfold fuzzyDecisions
  rw [List.mem_filterMap]

theorem comp_decision_exists {cfg : Config} {input : List Record} {c : List RecId}
    (hc : c ∈ comps cfg input) :
    ∃ d, resolveList ((survivors input).filter (fun r => decide (r.id ∈ c))) = some d
      ∧ d ∈ fuzzyDecisions cfg input := by
  have hcne : c ≠ [] := comps_ne_nil c hc
  rcases List.exists_mem_of_ne_nil c hcne with ⟨x, hx⟩
  have hxs := comps_mem_survivorIds c hc x hx
  rcases List.mem_map.1 hxs with ⟨s, hs, rfl⟩
  have hflt : s ∈ (survivors input).filter (fun r => decide (r.id ∈ c)) :=
    List.mem_filter.2 ⟨hs, decide_eq_true hx⟩
  rcases resolveList_of_ne_nil (List.ne_nil_of_mem hflt) with ⟨d, hd, _, _⟩
  exact ⟨d, hd, mem_fuzzyDecisions.2 ⟨c, hc, hd⟩⟩

theorem fuzzyDecision_spec {cfg : Config} {input : List Record} {c : List RecId}
    (hc : c ∈ comps cfg input) {d : MergeDecision}
    (hd : resolveList ((survivors input).filter (fun r => decide (r.id ∈ c))) = some d) :
    (d.primary.id ∈ (survivors input).map Record.id ∧ d.primary.id ∈ c)
      ∧ ∀ i, i ∈ d.subsumed
          ↔ (i ∈ (survivors input).map Record.id ∧ i ∈ c ∧ i ≠ d.primary.id) := by
  rcases resolveList_some_spec hd with ⟨hpid, hsubiff⟩
  rcases mem_filter_survivors_ids.1 hpid with ⟨hps, hpc⟩
  refine ⟨⟨hps, hpc⟩, ?_⟩
  intro i
  rw [hsubiff i, mem_filter_survivors_ids]
  constructor
  · rintro ⟨⟨h1, h2⟩, h3⟩
    exact ⟨h1, h2, h3⟩
  · rintro ⟨h1, h2, h3⟩
    exact ⟨⟨h1, h2⟩, h3⟩

theorem fuzzyDecisions_pairwise (cfg : Config) (input : List Record) :
    (fuzzyDecisions cfg input).Pairwise subDisj := by
  unfold fuzzyDecisions
  rw [List.pairwise_filterMap]
  refine (comps_pairwise cfg input).imp ?_
  intro c₁ c₂ hdisj d₁ hd₁ d₂ hd₂ i h1 h2
  rw [Option.mem_def] at hd₁ hd₂
  rcases resolveList_some_spec hd₁ with ⟨_, hs₁⟩
  rcases resolveList_some_spec hd₂ with ⟨_, hs₂⟩
  have hc₁ := (mem_filter_survivors_ids.1 ((hs₁ _).1 h1).1).2
  have hc₂ := (mem_filter_survivors_ids.1 ((hs₂ _).1 h2).1).2
  exact hdisj i hc₁ hc₂

/-- A fuzzy decision's subsumed identifiers are survivor identifiers. -/
theorem fuzzySubsumed_subset_survivors {cfg : Config} {input : List Record}
    {d : MergeDecision} (hd : d ∈ fuzzyDecisions cfg input) {i : RecId}
    (hi : i ∈ d.subsumed) : i ∈ (survivors input).map Record.id := by
  rcases mem_fuzzyDecisions.1 hd with ⟨c, hc, hrd⟩
  rcases resolveList_some_spec hrd with ⟨_, hsubiff⟩
  exact (mem_filter_survivors_ids.1 ((hsubiff _).1 hi).1).1

theorem mem_highMembers {cfg : Config} {input : List Record} {i : RecId} :
    i ∈ highMembers cfg input ↔ ∃ c ∈ comps cfg input, i ∈ c := by
  unfold highMembers
  rw [List.mem_flatten]

theorem mem_reviewIdsOf {cfg : Config} {input : List Record} {i : RecId} :
    i ∈ reviewIdsOf cfg input
      ↔ ∃ m ∈ reviewQueueOf cfg input, i = m.idA ∨ i = m.idB := by
  unfold reviewIdsOf
  rw [List.mem_append]
  constructor
  · rintro (h | h) <;> rcases List.mem_map.1 h with ⟨m, hm, rfl⟩
    · exact ⟨m, hm, Or.inl rfl⟩
    · exact ⟨m, hm, Or.inr rfl⟩
  · rintro ⟨m, hm, rfl | rfl⟩
    · exact Or.inl (List.mem_map_of_mem _ hm)
    · exact Or.inr (List.mem_map_of_mem _ hm)

theorem reviewIds_subset_survivors {cfg : Config} {input : List Record} {i : RecId}
    (hi : i ∈ reviewIdsOf cfg input) : i ∈ (survivors input).map Record.id := by
  rcases mem_reviewIdsOf.1 hi with ⟨m, hm, hor⟩
  have hmf := (reviewQueue_subset_fuzzyMatches hm).1
  rcases fuzzyMatches_ids hmf with ⟨hA, hB⟩
  rcases hor with rfl | rfl
  · exact hA
  · exact hB

theorem reviewIds_not_highMembers {cfg : Config} {input : List Record} {i : RecId}
    (hi : i ∈ reviewIdsOf cfg input) : i ∉ highMembers cfg input := by
  rcases mem_reviewIdsOf.1 hi with ⟨m, hm, hor⟩
  rcases reviewQueue_subset_fuzzyMatches hm with ⟨_, _, hA, hB⟩
  rcases hor with rfl | rfl
  · exact hA
  · exact hB

theorem mem_finalIds {cfg : Config} {input : List Record} {i : RecId} :
    i ∈ (finalRecordsOf cfg input).map Record.id
      ↔ (∃ d ∈ fuzzyDecisions cfg input, i = d.primary.id)
        ∨ (i ∈ (survivors input).map Record.id
            ∧ i ∉ highMembers cfg input ∧ i ∉ reviewIdsOf cfg input) := by
  unfold finalRecordsOf
  rw [List.map_append, List.mem_append]
  constructor
  · rintro (h | h)
    · rcases List.mem_map.1 h with ⟨p, hp, rfl⟩
      rcases List.mem_map.1 hp with ⟨d, hd, rfl⟩
      exact Or.inl ⟨d, hd, rfl⟩
    · rcases List.mem_map.1 h with ⟨s, hs, rfl⟩
      rcases List.mem_filter.1 hs with ⟨h1, h2⟩
      have h2' := of_decide_eq_true h2
      exact Or.inr ⟨List.mem_map_of_mem _ h1, h2'.1, h2'.2⟩
  · rintro (⟨d, hd, rfl⟩ | ⟨h1, h2, h3⟩)
    · exact Or.inl (List.mem_map_of_mem _ (List.mem_map_of_mem _ hd))
    · rcases List.mem_map.1 h1 with ⟨s, hs, rfl⟩
      exact Or.inr (List.mem_map_of_mem _ (List.mem_filter.2 ⟨hs, decide_eq_true ⟨h2, h3⟩⟩))

end Dedup

namespace Dedup

theorem subDisj_symm : Symmetric subDisj :=
  fun _ _ h i hi₂ hi₁ => h i hi₁ hi₂

theorem decisions_pairwise (cfg : Config) (input : List Record)
    (hnd : (input.map Record.id).Nodup) :
    (exactDecisions input ++ fuzzyDecisions cfg input).Pairwise subDisj := by
  rw [List.pairwise_append]
  refine ⟨exactDecisions_pairwise hnd, fuzzyDecisions_pairwise cfg input, ?_⟩
  intro d₁ h₁ d₂ h₂ i hi₁ hi₂
  exact survivor_not_exactSubsumed hnd (fuzzySubsumed_subset_survivors h₂ hi₂)
    (mem_exactSubsumedIds.2 ⟨d₁, h₁, hi₁⟩)

theorem mem_flatten_subsumed {ds : List MergeDecision} {i : RecId} :
    i ∈ (ds.map MergeDecision.subsumed).flatten ↔ ∃ d ∈ ds, i ∈ d.subsumed := by
  rw [List.mem_flatten]
  constructor
  · rintro ⟨l, hl, hil⟩
    rcases List.mem_map.1 hl with ⟨d, hd, rfl⟩
    exact ⟨d, hd, hil⟩
  · rintro ⟨d, hd, hid⟩
    exact ⟨d.subsumed, List.mem_map_of_mem _ hd, hid⟩

theorem comps_eq_of_shared {cfg : Config} {input : List Record} {c c' : List RecId}
    (hc : c ∈ comps cfg input) (hc' : c' ∈ comps cfg input) {i : RecId}
    (hi : i ∈ c) (hi' : i ∈ c') : c = c' := by
  by_contra hne
  exact pairwise_forall_ne (fun h => idDisj_symm h) (comps_pairwise cfg input) hc hc' hne i hi hi'

theorem fuzzyPrimary_in_highMembers {cfg : Config} {input : List Record}
    {d : MergeDecision} (hd : d ∈ fuzzyDecisions cfg input) :
    d.primary.id ∈ highMembers cfg input := by
  rcases mem_fuzzyDecisions.1 hd with ⟨c, hc, hrd⟩
  exact mem_highMembers.2 ⟨c, hc, ((fuzzyDecision_spec hc hrd).1).2⟩

theorem fuzzySubsumed_in_highMembers {cfg : Config} {input : List Record}
    {d : MergeDecision} (hd : d ∈ fuzzyDecisions cfg input) {i : RecId}
    (hi : i ∈ d.subsumed) : i ∈ highMembers cfg input := by
  rcases mem_fuzzyDecisions.1 hd with ⟨c, hc, hrd⟩
  exact mem_highMembers.2 ⟨c, hc, (((fuzzyDecision_spec hc hrd).2 i).1 hi).2.1⟩

theorem run_eq_ok {cfg : Config} {input : List Record} (h : validConfig cfg) :
    run cfg input = Except.ok (runOutput cfg input) := by
  unfold run
  rw [if_pos h]

theorem run_ok_eq {cfg : Config} {input : List Record} {out : RunOutput}
    (hrun : run cfg input = Except.ok out) : out = runOutput cfg input := by
  unfold run at hrun
  by_cases hvc : validConfig cfg
  · rw [if_pos hvc] at hrun
    exact (Except.ok.inj hrun).symm
  · rw [if_neg hvc] at hrun
    cases hrun

/-- C1: in every run of the orchestrator on unique-identifier, valid
input records, every input identifier lands in exactly one of the
final record set, the subsumed set of some MergeDecision, or the
review queue — and a subsumed identifier belongs to exactly one
MergeDecision. -/
theorem dedup_partition (cfg : Config) (input : List Record) (out : RunOutput)
    (hrun : run cfg input = Except.ok out)
    (hnd : (input.map Record.id).Nodup)
    (hv : ∀ r ∈ input, validRecord r) :
    (∀ i ∈ input.map Record.id,
      exactlyOne3 (i ∈ out.finalIds) (i ∈ out.subsumedIds) (i ∈ out.reviewIds))
    ∧ ∀ i ∈ out.subsumedIds, ∃! d, d ∈ out.decisions ∧ i ∈ d.subsumed := by
  obtain rfl := run_ok_eq hrun
  have hgood : goodRecords input = input := goodRecords_eq_self hv
  have hfin : ∀ j, j ∈ (runOutput cfg input).finalIds
      ↔ j ∈ (finalRecordsOf cfg input).map Record.id := fun j => Iff.rfl
  have hsub : ∀ j, j ∈ (runOutput cfg input).subsumedIds
      ↔ ∃ d ∈ exactDecisions input ++ fuzzyDecisions cfg input, j ∈ d.subsumed :=
    fun j => mem_flatten_subsumed
  have hrev : ∀ j, j ∈ (runOutput cfg input).reviewIds ↔ j ∈ reviewIdsOf cfg input :=
    fun j => Iff.rfl
  have hnotsub_of_surv_nothigh :
      ∀ i, i ∈ (survivors input).map Record.id → i ∉ highMembers cfg input →
        i ∉ (runOutput cfg input).subsumedIds := by
    intro i his hih hmem
    rcases (hsub i).1 hmem with ⟨d, hd, hid⟩
    rcases List.mem_append.1 hd with hd | hd
    · exact survivor_not_exactSubsumed hnd his (mem_exactSubsumedIds.2 ⟨d, hd, hid⟩)
    · exact hih (fuzzySubsumed_in_highMembers hd hid)
  constructor
  · intro i hi
    rw [← hgood] at hi
    rcases good_id_cover hi with hs | hex
    · by_cases hh : i ∈ highMembers cfg input
      · rcases mem_highMembers.1 hh with ⟨c, hc, hic⟩
        rcases comp_decision_exists hc with ⟨d, hd, hdf⟩
        rcases fuzzyDecision_spec hc hd with ⟨⟨hps, hpc⟩, hsubiff⟩
        have hnrev : i ∉ (runOutput cfg input).reviewIds :=
          fun hr => reviewIds_not_highMembers ((hrev i).1 hr) hh
        by_cases hpi : i = d.primary.id
        · refine Or.inl ⟨?_, ?_, hnrev⟩
          · exact (hfin i).2 (mem_finalIds.2 (Or.inl ⟨d, hdf, hpi⟩))
          · intro hmem
            rcases (hsub i).1 hmem with ⟨d', hd', hid'⟩
            rcases List.mem_append.1 hd' with hd' | hd'
            · exact survivor_not_exactSubsumed hnd hs (mem_exactSubsumedIds.2 ⟨d', hd', hid'⟩)
            · rcases mem_fuzzyDecisions.1 hd' with ⟨c', hc', hrd'⟩
              rcases (fuzzyDecision_spec hc' hrd').2 i |>.1 hid' with ⟨_, hic', hne'⟩
              have : c = c' := comps_eq_of_shared hc hc' hic hic'
              subst this
              rw [hd] at hrd'
              obtain rfl := Option.some.inj hrd'
              exact hne' hpi
        · refine Or.inr (Or.inl ⟨?_, ?_, hnrev⟩)
          · intro hf
            rcases mem_finalIds.1 ((hfin i).1 hf) with ⟨d', hd', hpi'⟩ | ⟨_, hih, _⟩
            · rcases mem_fuzzyDecisions.1 hd' with ⟨c', hc', hrd'⟩
              have hpc' := ((fuzzyDecision_spec hc' hrd').1).2
              rw [← hpi'] at hpc'
              have : c = c' := comps_eq_of_shared hc hc' hic hpc'
              subst this
              rw [hd] at hrd'
              obtain rfl := Option.some.inj hrd'
              exact hpi hpi'
            · exact hih hh
          · exact (hsub i).2 ⟨d, List.mem_append.2 (Or.inr hdf),
              (hsubiff i).2 ⟨hs, hic, hpi⟩⟩
      · by_cases hrv : i ∈ reviewIdsOf cfg input
        · refine Or.inr (Or.inr ⟨?_, ?_, (hrev i).2 hrv⟩)
          · intro hf
            rcases mem_finalIds.1 ((hfin i).1 hf) with ⟨d', hd', hpi'⟩ | ⟨_, _, hnr⟩
            · exact hh (hpi' ▸ fuzzyPrimary_in_highMembers hd')
            · exact hnr hrv
          · exact hnotsub_of_surv_nothigh i hs hh
        · refine Or.inl ⟨?_, hnotsub_of_surv_nothigh i hs hh, fun hr => hrv ((hrev i).1 hr)⟩
          exact (hfin i).2 (mem_finalIds.2 (Or.inr ⟨hs, hh, hrv⟩))
    · have hnosurv : i ∉ (survivors input).map Record.id :=
        fun hs => survivor_not_exactSubsumed hnd hs hex
      refine Or.inr (Or.inl ⟨?_, ?_, ?_⟩)
      · intro hf
        rcases mem_finalIds.1 ((hfin i).1 hf) with ⟨d', hd', hpi'⟩ | ⟨his, _, _⟩
        · rcases mem_fuzzyDecisions.1 hd' with ⟨c', hc', hrd'⟩
          exact hnosurv (hpi' ▸ ((fuzzyDecision_spec hc' hrd').1).1)
        · exact hnosurv his
      · rcases mem_exactSubsumedIds.1 hex with ⟨d, hd, hid⟩
        exact (hsub i).2 ⟨d, List.mem_append.2 (Or.inl hd), hid⟩
      · exact fun hr => hnosurv (reviewIds_subset_survivors ((hrev i).1 hr))
  · intro i hi
    rcases (hsub i).1 hi with ⟨d, hd, hid⟩
    refine ⟨d, ⟨hd, hid⟩, ?_⟩
    rintro d' ⟨hd', hid'⟩
    by_contra hne
    exact pairwise_forall_ne (fun h => subDisj_symm h) (decisions_pairwise cfg input hnd)
      hd' hd hne i hid' hid

end Dedup

namespace Dedup

/-- A survivor identifier lying among a group's identifiers is that
group's resolved primary identifier. -/
theorem survivor_id_in_group_is_primary {input : List Record}
    (hnd : (input.map Record.id).Nodup) {i : RecId}
    (hs : i ∈ (survivors input).map Record.id) {g : List Record} {d : MergeDecision}
    (hg : g ∈ groupsOf input) (hd : resolveList g = some d)
    (hig : i ∈ g.map Record.id) : i = d.primary.id := by
  rcases List.mem_map.1 hs with ⟨s, hs', rfl⟩
  rcases mem_survivors.1 hs' with ⟨g', hg', d', hd', rfl⟩
  rcases resolveList_some_spec hd' with ⟨hpid', _⟩
  have : g' = g := groupsOf_eq_of_shared_id hnd hg' hg hpid' hig
  subst this
  rw [hd] at hd'
  obtain rfl := Option.some.inj hd'
  rfl

theorem mem_groupIds_of_group {g : List Record} {d : MergeDecision}
    (hd : resolveList g = some d) {i : RecId} (hi : i ∈ g.map Record.id) :
    i ∈ d.groupIds := by
  rcases resolveList_some_spec hd with ⟨_, hsub⟩
  by_cases hip : i = d.primary.id
  · rw [hip]
    exact List.mem_cons_self _ _
  · exact List.mem_cons_of_mem _ ((hsub i).2 ⟨hi, hip⟩)

theorem groupIds_subset_group {g : List Record} {d : MergeDecision}
    (hd : resolveList g = some d) {i : RecId} (hi : i ∈ d.groupIds) :
    i ∈ g.map Record.id := by
  rcases resolveList_some_spec hd with ⟨hpid, hsub⟩
  rcases List.mem_cons.1 hi with rfl | hi'
  · exact hpid
  · exact ((hsub i).1 hi').1

theorem fuzzy_groupIds_subset_comp {cfg : Config} {input : List Record} {c : List RecId}
    (hc : c ∈ comps cfg input) {d : MergeDecision}
    (hd : resolveList ((survivors input).filter (fun r => decide (r.id ∈ c))) = some d)
    {i : RecId} (hi : i ∈ d.groupIds) : i ∈ c := by
  rcases fuzzyDecision_spec hc hd with ⟨⟨_, hpc⟩, hsubiff⟩
  rcases List.mem_cons.1 hi with rfl | hi'
  · exact hpc
  · exact ((hsubiff i).1 hi').2.1

/-- A comp member that is a survivor identifier lies in that comp's
decision group. -/
theorem mem_fuzzy_groupIds {cfg : Config} {input : List Record} {c : List RecId}
    (hc : c ∈ comps cfg input) {d : MergeDecision}
    (hd : resolveList ((survivors input).filter (fun r => decide (r.id ∈ c))) = some d)
    {i : RecId} (his : i ∈ (survivors input).map Record.id) (hic : i ∈ c) :
    i ∈ d.groupIds := by
  rcases fuzzyDecision_spec hc hd with ⟨⟨_, _⟩, hsubiff⟩
  by_cases hip : i = d.primary.id
  · rw [hip]
    exact List.mem_cons_self _ _
  · exact List.mem_cons_of_mem _ ((hsubiff i).2 ⟨his, hic, hip⟩)

/-- C3: two HIGH-classified fuzzy matches A↔B and B↔C over three
distinct identifiers force exactly one MergeDecision whose group
contains all three (HIGH matches are unioned into connected
components before merging), and in every run the decisions' subsumed
sets are pairwise disjoint — no identifier is subsumed by more than
one MergeDecision. -/
theorem high_transitive_single_decision (cfg : Config) (input : List Record)
    (out : RunOutput) (hrun : run cfg input = Except.ok out)
    (hnd : (input.map Record.id).Nodup)
    {m₁ m₂ : MatchResult} (hm₁ : m₁ ∈ out.fuzzyMatched) (hm₂ : m₂ ∈ out.fuzzyMatched)
    (ht₁ : m₁.tier = Tier.high) (ht₂ : m₂.tier = Tier.high)
    {a b c : RecId}
    (hab : (m₁.idA = a ∧ m₁.idB = b) ∨ (m₁.idA = b ∧ m₁.idB = a))
    (hbc : (m₂.idA = b ∧ m₂.idB = c) ∨ (m₂.idA = c ∧ m₂.idB = b))
    (hne₁ : a ≠ b) (hne₂ : b ≠ c) (hne₃ : a ≠ c) :
    (∃! d, d ∈ out.decisions ∧ a ∈ d.groupIds ∧ b ∈ d.groupIds ∧ c ∈ d.groupIds)
    ∧ out.decisions.Pairwise subDisj := by
  obtain rfl := run_ok_eq hrun
  have hm₁' : m₁ ∈ fuzzyMatches cfg input := hm₁
  have hm₂' : m₂ ∈ fuzzyMatches cfg input := hm₂
  have he₁ : (m₁.idA, m₁.idB) ∈ highEdges cfg input := by
    unfold highEdges
    exact List.mem_map_of_mem _ (List.mem_filter.2 ⟨hm₁', decide_eq_true ht₁⟩)
  have he₂ : (m₂.idA, m₂.idB) ∈ highEdges cfg input := by
    unfold highEdges
    exact List.mem_map_of_mem _ (List.mem_filter.2 ⟨hm₂', decide_eq_true ht₂⟩)
  rcases comps_edge _ he₁ with ⟨K₁, hK₁, hKa₁, hKb₁⟩
  rcases comps_edge _ he₂ with ⟨K₂, hK₂, hKa₂, hKb₂⟩
  have haK : a ∈ K₁ ∧ b ∈ K₁ := by
    rcases hab with ⟨h1, h2⟩ | ⟨h1, h2⟩
    · exact ⟨h1 ▸ hKa₁, h2 ▸ hKb₁⟩
    · exact ⟨h2 ▸ hKb₁, h1 ▸ hKa₁⟩
  have hbK : b ∈ K₂ ∧ c ∈ K₂ := by
    rcases hbc with ⟨h1, h2⟩ | ⟨h1, h2⟩
    · exact ⟨h1 ▸ hKa₂, h2 ▸ hKb₂⟩
    · exact ⟨h2 ▸ hKb₂, h1 ▸ hKa₂⟩
  have hKeq : K₁ = K₂ := comps_eq_of_shared hK₁ hK₂ haK.2 hbK.1
  subst hKeq
  have hasurv : a ∈ (survivors input).map Record.id := by
    rcases fuzzyMatches_ids hm₁' with ⟨hA, hB⟩
    rcases hab with ⟨h1, _⟩ | ⟨_, h2⟩
    · exact h1 ▸ hA
    · exact h2 ▸ hB
  have hbsurv : b ∈ (survivors input).map Record.id := by
    rcases fuzzyMatches_ids hm₁' with ⟨hA, hB⟩
    rcases hab with ⟨_, h2⟩ | ⟨h1, _⟩
    · exact h2 ▸ hB
    · exact h1 ▸ hA
  have hcsurv : c ∈ (survivors input).map Record.id := by
    rcases fuzzyMatches_ids hm₂' with ⟨hA, hB⟩
    rcases hbc with ⟨_, h2⟩ | ⟨h1, _⟩
    · exact h2 ▸ hB
    · exact h1 ▸ hA
  rcases comp_decision_exists hK₁ with ⟨d, hd, hdf⟩
  constructor
  · refine ⟨d, ⟨List.mem_append.2 (Or.inr hdf),
      mem_fuzzy_groupIds hK₁ hd hasurv haK.1,
      mem_fuzzy_groupIds hK₁ hd hbsurv hbK.1,
      mem_fuzzy_groupIds hK₁ hd hcsurv hbK.2⟩, ?_⟩
    rintro d' ⟨hd', ha', hb', hc'⟩
    rcases List.mem_append.1 hd' with hd' | hd'
    · exfalso
      rcases mem_exactDecisions.1 hd' with ⟨g, hg, _, hrd⟩
      have hag : a ∈ g.map Record.id := groupIds_subset_group hrd ha'
      have hbg : b ∈ g.map Record.id := groupIds_subset_group hrd hb'
      have hap : a = d'.primary.id :=
        survivor_id_in_group_is_primary hnd hasurv hg hrd hag
      have hbp : b = d'.primary.id :=
        survivor_id_in_group_is_primary hnd hbsurv hg hrd hbg
      exact hne₁ (hap.trans hbp.symm)
    · rcases mem_fuzzyDecisions.1 hd' with ⟨c', hc', hrd'⟩
      have hbc' : b ∈ c' := fuzzy_groupIds_subset_comp hc' hrd' hb'
      have : K₁ = c' := comps_eq_of_shared hK₁ hc' hbK.1 hbc'
      subst this
      rw [hd] at hrd'
      exact (Option.some.inj hrd').symm
  · exact decisions_pairwise cfg input hnd

/-- C2: a pair of valid input records with identical exact-match keys
(identical normalized name and address) is assigned confidence
exactly 100 by the exact pass, is collapsed by one MergeDecision via
the Merge Resolver, and contributes no entry pairing the two
identifiers to the review queue. -/
theorem exact_pair_spec (cfg : Config) (input : List Record) (out : RunOutput)
    (hrun : run cfg input = Except.ok out)
    (hnd : (input.map Record.id).Nodup) (hv : ∀ r ∈ input, validRecord r)
    {a b : Record} (ha : a ∈ input) (hb : b ∈ input) (hne : a.id ≠ b.id)
    (hkey : recKey a = recKey b) :
    (∃ m ∈ out.exactMatches, m.confidence = 100
        ∧ ((m.idA = a.id ∧ m.idB = b.id) ∨ (m.idA = b.id ∧ m.idB = a.id)))
    ∧ (∃ d ∈ out.decisions, a.id ∈ d.groupIds ∧ b.id ∈ d.groupIds)
    ∧ (∀ m ∈ out.reviewQueue,
        ¬ ((m.idA = a.id ∧ m.idB = b.id) ∨ (m.idA = b.id ∧ m.idB = a.id))) := by
  obtain rfl := run_ok_eq hrun
  have hgood : goodRecords input = input := goodRecords_eq_self hv
  have ha' : a ∈ goodRecords input := hgood.symm ▸ ha
  have hb' : b ∈ goodRecords input := hgood.symm ▸ hb
  rcases mem_groupsOf_self ha' with ⟨g, hg, hag, hgeq⟩
  have hbg : b ∈ g := by
    rw [hgeq]
    exact List.mem_filter.2 ⟨hb', decide_eq_true hkey.symm⟩
  have hvne : a ≠ b := fun hh => hne (hh ▸ rfl)
  have hlen : 2 ≤ g.length := two_le_length_of_mem_ne hag hbg hvne
  rcases resolveList_of_ne_nil (List.ne_nil_of_mem hag) with ⟨d, hd, _, _⟩
  refine ⟨?_, ?_, ?_⟩
  · rcases mem_allPairs hag hbg hvne with hp | hp
    · refine ⟨exactMatch a b, ?_, rfl, Or.inl ⟨rfl, rfl⟩⟩
      show exactMatch a b ∈ exactMatchResults input
      unfold exactMatchResults
      exact List.mem_flatten.2 ⟨_, List.mem_map_of_mem _
        (List.mem_filter.2 ⟨hg, decide_eq_true hlen⟩),
        List.mem_map.2 ⟨(a, b), hp, rfl⟩⟩
    · refine ⟨exactMatch b a, ?_, rfl, Or.inr ⟨rfl, rfl⟩⟩
      show exactMatch b a ∈ exactMatchResults input
      unfold exactMatchResults
      exact List.mem_flatten.2 ⟨_, List.mem_map_of_mem _
        (List.mem_filter.2 ⟨hg, decide_eq_true hlen⟩),
        List.mem_map.2 ⟨(b, a), hp, rfl⟩⟩
  · refine ⟨d, List.mem_append.2 (Or.inl (mem_exactDecisions.2 ⟨g, hg, hlen, hd⟩)), ?_, ?_⟩
    · exact mem_groupIds_of_group hd (List.mem_map_of_mem _ hag)
    · exact mem_groupIds_of_group hd (List.mem_map_of_mem _ hbg)
  · intro m hm hcontra
    have hmf := (reviewQueue_subset_fuzzyMatches hm).1
    rcases fuzzyMatches_ids hmf with ⟨hA, hB⟩
    have haid : a.id ∈ (survivors input).map Record.id := by
      rcases hcontra with ⟨h1, _⟩ | ⟨_, h2⟩
      · exact h1 ▸ hA
      · exact h2 ▸ hB
    have hbid : b.id ∈ (survivors input).map Record.id := by
      rcases hcontra with ⟨_, h2⟩ | ⟨h1, _⟩
      · exact h2 ▸ hB
      · exact h1 ▸ hA
    have hap : a.id = d.primary.id :=
      survivor_id_in_group_is_primary hnd haid hg hd (List.mem_map_of_mem _ hag)
    have hbp : b.id = d.primary.id :=
      survivor_id_in_group_is_primary hnd hbid hg hd (List.mem_map_of_mem _ hbg)
    exact hne (hap.trans hbp.symm)

end Dedup

namespace Dedup

theorem resolveList_singleton (r : Record) : resolveList [r] = some ⟨r, [], []⟩ := by
  unfold resolveList
  simp [pickPrimary, mergeWithProv]

theorem filter_key_singleton {l : List Record} (hknd : (l.map recKey).Nodup) :
    ∀ r ∈ l, l.filter (fun q => decide (recKey q = recKey r)) = [r] := by
  induction l with
  | nil => simp
  | cons x xs ih =>
    intro r hr
    rw [List.map_cons, List.nodup_cons] at hknd
    rcases List.mem_cons.1 hr with rfl | hr'
    · rw [List.filter_cons, if_pos (by simp)]
      have hnil : xs.filter (fun q => decide (recKey q = recKey r)) = [] := by
        rw [List.filter_eq_nil_iff]
        intro q hq hpq
        exact hknd.1 ((of_decide_eq_true hpq) ▸ List.mem_map_of_mem _ hq)
      rw [hnil]
    · rw [List.filter_cons, if_neg ?hx]
      · exact ih hknd.2 r hr'
      case hx =>
        simp only [decide_eq_true_eq]
        intro hh
        exact hknd.1 (hh ▸ List.mem_map_of_mem _ hr')

theorem survivors_eq_self {input : List Record}
    (hgood : goodRecords input = input) (hknd : (input.map recKey).Nodup) :
    survivors input = input := by
  unfold survivors groupsOf dedupKeys
  rw [hgood, List.dedup_eq_self.2 hknd, List.filterMap_map, List.filterMap_map]
  have hcong : ∀ r ∈ input,
      ((fun g => (resolveList g).map MergeDecision.primary) ∘
        (fun k => input.filter (fun q => decide (recKey q = k)))) (recKey r) = some r := by
    intro r hr
    show (resolveList (input.filter (fun q => decide (recKey q = recKey r)))).map
        MergeDecision.primary = some r
    rw [filter_key_singleton hknd r hr, resolveList_singleton]
    rfl
  calc input.filterMap _
      = input.filterMap some := List.filterMap_congr (fun r hr => hcong r hr)
    _ = input := List.filterMap_some input

end Dedup

namespace Dedup

set_option maxRecDepth 100000

theorem dedup_partition_witness :
    (∀ i ∈ ([mkRecord 1 "aa" "bb" "" "" "", mkRecord 2 "cc" "dd" "" "" ""].map Record.id),
      exactlyOne3
        (i ∈ (runOutput defaultConfig
          [mkRecord 1 "aa" "bb" "" "" "", mkRecord 2 "cc" "dd" "" "" ""]).finalIds)
        (i ∈ (runOutput defaultConfig
          [mkRecord 1 "aa" "bb" "" "" "", mkRecord 2 "cc" "dd" "" "" ""]).subsumedIds)
        (i ∈ (runOutput defaultConfig
          [mkRecord 1 "aa" "bb" "" "" "", mkRecord 2 "cc" "dd" "" "" ""]).reviewIds))
    ∧ ∀ i ∈ (runOutput defaultConfig
        [mkRecord 1 "aa" "bb" "" "" "", mkRecord 2 "cc" "dd" "" "" ""]).subsumedIds,
        ∃! d, d ∈ (runOutput defaultConfig
          [mkRecord 1 "aa" "bb" "" "" "", mkRecord 2 "cc" "dd" "" "" ""]).decisions
          ∧ i ∈ d.subsumed :=
  dedup_partition defaultConfig
    [mkRecord 1 "aa" "bb" "" "" "", mkRecord 2 "cc" "dd" "" "" ""]
    (runOutput defaultConfig [mkRecord 1 "aa" "bb" "" "" "", mkRecord 2 "cc" "dd" "" "" ""])
    (run_eq_ok (of_decide_eq_true (by with_unfolding_all rfl))) (by decide) (by decide)

theorem exact_pair_spec_witness :
    (∃ m ∈ (runOutput defaultConfig [mkRecord 1 "Foo" "12 Main St" "" "" "",
        mkRecord 2 "foo" "12 main street" "" "" ""]).exactMatches,
        m.confidence = 100
        ∧ ((m.idA = (mkRecord 1 "Foo" "12 Main St" "" "" "").id
              ∧ m.idB = (mkRecord 2 "foo" "12 main street" "" "" "").id)
          ∨ (m.idA = (mkRecord 2 "foo" "12 main street" "" "" "").id
              ∧ m.idB = (mkRecord 1 "Foo" "12 Main St" "" "" "").id)))
    ∧ (∃ d ∈ (runOutput defaultConfig [mkRecord 1 "Foo" "12 Main St" "" "" "",
        mkRecord 2 "foo" "12 main street" "" "" ""]).decisions,
        (mkRecord 1 "Foo" "12 Main St" "" "" "").id ∈ d.groupIds
          ∧ (mkRecord 2 "foo" "12 main street" "" "" "").id ∈ d.groupIds)
    ∧ (∀ m ∈ (runOutput defaultConfig [mkRecord 1 "Foo" "12 Main St" "" "" "",
        mkRecord 2 "foo" "12 main street" "" "" ""]).reviewQueue,
        ¬ ((m.idA = (mkRecord 1 "Foo" "12 Main St" "" "" "").id
              ∧ m.idB = (mkRecord 2 "foo" "12 main street" "" "" "").id)
          ∨ (m.idA = (mkRecord 2 "foo" "12 main street" "" "" "").id
              ∧ m.idB = (mkRecord 1 "Foo" "12 Main St" "" "" "").id))) :=
  exact_pair_spec defaultConfig
    [mkRecord 1 "Foo" "12 Main St" "" "" "", mkRecord 2 "foo" "12 main street" "" "" ""]
    (runOutput defaultConfig [mkRecord 1 "Foo" "12 Main St" "" "" "",
      mkRecord 2 "foo" "12 main street" "" "" ""])
    (run_eq_ok (of_decide_eq_true (by with_unfolding_all rfl))) (by decide) (by decide)
    (List.mem_cons_self _ _)
    (List.mem_cons_of_mem _ (List.mem_singleton.2 rfl))
    (by decide) (by decide)

theorem high_transitive_single_decision_witness :
    (∃! d, d ∈ (runOutput defaultConfig
        [mkRecord 1 "alpha beta" "one two three four" "555" "" "",
         mkRecord 2 "alpha beta" "one two three four five" "555" "" "",
         mkRecord 3 "alpha beta" "one two three four five six" "555" "" ""]).decisions
      ∧ (1 : RecId) ∈ d.groupIds ∧ (2 : RecId) ∈ d.groupIds ∧ (3 : RecId) ∈ d.groupIds)
    ∧ (runOutput defaultConfig
        [mkRecord 1 "alpha beta" "one two three four" "555" "" "",
         mkRecord 2 "alpha beta" "one two three four five" "555" "" "",
         mkRecord 3 "alpha beta" "one two three four five six" "555" "" ""]).decisions.Pairwise
        subDisj :=
  high_transitive_single_decision defaultConfig
    [mkRecord 1 "alpha beta" "one two three four" "555" "" "",
     mkRecord 2 "alpha beta" "one two three four five" "555" "" "",
     mkRecord 3 "alpha beta" "one two three four five six" "555" "" ""]
    (runOutput defaultConfig
      [mkRecord 1 "alpha beta" "one two three four" "555" "" "",
       mkRecord 2 "alpha beta" "one two three four five" "555" "" "",
       mkRecord 3 "alpha beta" "one two three four five six" "555" "" ""])
    (run_eq_ok (of_decide_eq_true (by with_unfolding_all rfl))) (by decide)
    (show (⟨1, 2, [("name", 100), ("address", 80), ("phone", 100)], 1780/19,
        Tier.high⟩ : MatchResult) ∈ (runOutput defaultConfig
        [mkRecord 1 "alpha beta" "one two three four" "555" "" "",
         mkRecord 2 "alpha beta" "one two three four five" "555" "" "",
         mkRecord 3 "alpha beta" "one two three four five six" "555" "" ""]).fuzzyMatched
      from of_decide_eq_true (by with_unfolding_all rfl))
    (show (⟨2, 3, [("name", 100), ("address", 250/3), ("phone", 100)], 1800/19,
        Tier.high⟩ : MatchResult) ∈ (runOutput defaultConfig
        [mkRecord 1 "alpha beta" "one two three four" "555" "" "",
         mkRecord 2 "alpha beta" "one two three four five" "555" "" "",
         mkRecord 3 "alpha beta" "one two three four five six" "555" "" ""]).fuzzyMatched
      from of_decide_eq_true (by with_unfolding_all rfl))
    rfl rfl
    (a := 1) (b := 2) (c := 3)
    (Or.inl ⟨rfl, rfl⟩) (Or.inl ⟨rfl, rfl⟩)
    (by decide) (by decide) (by decide)

/-- C6 counterexample: a three-record input on which the engine (run
with the default configuration) produces a final record set whose
rerun does not return it unchanged — the first run suppresses two
MEDIUM review candidates because their members sit in a HIGH merge
group, and the second run rediscovers the corresponding match between
the merged record and the untouched survivor, emptying the final set
into the review queue. -/
theorem dedup_not_idempotent_cx :
    run defaultConfig
        [mkRecord 1 "alpha beta" "one two three four" "555" "" "",
         mkRecord 2 "alpha beta" "one two three four five" "555" "" "",
         mkRecord 3 "alpha beta" "one two three four six seven" "" "" ""]
      = Except.ok (runOutput defaultConfig
        [mkRecord 1 "alpha beta" "one two three four" "555" "" "",
         mkRecord 2 "alpha beta" "one two three four five" "555" "" "",
         mkRecord 3 "alpha beta" "one two three four six seven" "" "" ""])
    ∧ (runOutput defaultConfig ((runOutput defaultConfig
        [mkRecord 1 "alpha beta" "one two three four" "555" "" "",
         mkRecord 2 "alpha beta" "one two three four five" "555" "" "",
         mkRecord 3 "alpha beta" "one two three four six seven" "" "" ""]).finalRecords)).finalRecords
      ≠ (runOutput defaultConfig
        [mkRecord 1 "alpha beta" "one two three four" "555" "" "",
         mkRecord 2 "alpha beta" "one two three four five" "555" "" "",
         mkRecord 3 "alpha beta" "one two three four six seven" "" "" ""]).finalRecords :=
  ⟨run_eq_ok (of_decide_eq_true (by with_unfolding_all rfl)),
   of_decide_eq_true (by with_unfolding_all rfl)⟩

end Dedup

namespace Dedup

theorem validRecord_iff (x : Record) :
    validRecord x
      ↔ ((normalize x).name ≠ [] ∨ (normalize x).address ≠ []
          ∨ (normalize x).phone ≠ "" ∨ (normalize x).email ≠ ""
          ∨ (normalize x).website ≠ "") := by
  unfold validRecord
  tauto

theorem mergeStep_fst_name (acc : Record × List (String × RecId)) (r : Record) :
    (mergeStep acc r).1.name
      = if acc.1.name = "" ∧ r.name ≠ "" then r.name else acc.1.name := rfl

theorem mergeStep_fst_address (acc : Record × List (String × RecId)) (r : Record) :
    (mergeStep acc r).1.address
      = if acc.1.address = "" ∧ r.address ≠ "" then r.address else acc.1.address := rfl

theorem mergeStep_fst_phone (acc : Record × List (String × RecId)) (r : Record) :
    (mergeStep acc r).1.phone
      = if r.phone ≠ "" ∧ (acc.1.phone = "" ∨ (r.phone ≠ acc.1.phone ∧ acc.1.lastSeen < r.lastSeen))
        then r.phone else acc.1.phone := rfl

theorem mergeStep_fst_email (acc : Record × List (String × RecId)) (r : Record) :
    (mergeStep acc r).1.email
      = if r.email ≠ "" ∧ (acc.1.email = "" ∨ (r.email ≠ acc.1.email ∧ acc.1.lastSeen < r.lastSeen))
        then r.email else acc.1.email := rfl

theorem mergeStep_fst_website (acc : Record × List (String × RecId)) (r : Record) :
    (mergeStep acc r).1.website
      = if r.website ≠ ""
            ∧ (acc.1.website = "" ∨ (r.website ≠ acc.1.website ∧ acc.1.lastSeen < r.lastSeen))
        then r.website else acc.1.website := rfl

theorem normalize_name (x : Record) : (normalize x).name = words (lowerStr x.name) := rfl

theorem normalize_address (x : Record) :
    (normalize x).address = (words (lowerStr x.address)).map fixAbbrev := rfl

theorem normalize_phone (x : Record) : (normalize x).phone = digitsOnly x.phone := rfl

theorem normalize_email (x : Record) :
    (normalize x).email = String.intercalate " " (words (lowerStr x.email)) := rfl

theorem normalize_website (x : Record) :
    (normalize x).website = normWebsite x.website := rfl

/-- One merge step keeps the exact-match key of the accumulator when
the incoming record has the same key (within an exact group every
member shares the group's key, and the name/address fill-ins come
from same-key members). -/
theorem recKey_mergeStep {acc : Record × List (String × RecId)} {r : Record} {k}
    (hm : recKey acc.1 = k) (hr : recKey r = k) :
    recKey (mergeStep acc r).1 = k := by
  have hm1 : words (lowerStr acc.1.name) = k.1 := congrArg Prod.fst hm
  have hm2 : (words (lowerStr acc.1.address)).map fixAbbrev = k.2 := congrArg Prod.snd hm
  have hr1 : words (lowerStr r.name) = k.1 := congrArg Prod.fst hr
  have hr2 : (words (lowerStr r.address)).map fixAbbrev = k.2 := congrArg Prod.snd hr
  have h1 : words (lowerStr (mergeStep acc r).1.name) = k.1 := by
    rw [mergeStep_fst_name]
    split_ifs
    · exact hr1
    · exact hm1
  have h2 : ((words (lowerStr (mergeStep acc r).1.address)).map fixAbbrev) = k.2 := by
    rw [mergeStep_fst_address]
    split_ifs
    · exact hr2
    · exact hm2
  exact Prod.ext h1 h2

theorem recKey_foldl_mergeStep {k} :
    ∀ (l : List Record) (acc : Record × List (String × RecId)),
      recKey acc.1 = k → (∀ r ∈ l, recKey r = k) →
      recKey (l.foldl mergeStep acc).1 = k
  | [], _, hacc, _ => hacc
  | r :: rs, acc, hacc, hl => by
    rw [List.foldl_cons]
    exact recKey_foldl_mergeStep rs _ (recKey_mergeStep hacc (hl r (List.mem_cons_self _ _)))
      (fun q hq => hl q (List.mem_cons_of_mem _ hq))

theorem resolveList_key {g : List Record} {k} (hgk : ∀ r ∈ g, recKey r = k)
    {d : MergeDecision} (hd : resolveList g = some d) : recKey d.primary = k := by
  match g, hd with
  | r :: rs, hd =>
    have he : resolveList (r :: rs)
        = some ⟨(mergeWithProv (pickPrimary r rs)
              ((r :: rs).filter (fun q => decide (q.id ≠ (pickPrimary r rs).id)))).1,
            ((r :: rs).filter
              (fun q => decide (q.id ≠ (pickPrimary r rs).id))).map Record.id,
            (mergeWithProv (pickPrimary r rs)
              ((r :: rs).filter (fun q => decide (q.id ≠ (pickPrimary r rs).id)))).2⟩ := rfl
    rw [he] at hd
    obtain rfl := Option.some.inj hd
    show recKey (mergeWithProv (pickPrimary r rs)
      ((r :: rs).filter (fun q => decide (q.id ≠ (pickPrimary r rs).id)))).1 = k
    refine recKey_foldl_mergeStep _ _ (hgk _ (pickPrimary_mem r rs)) ?_
    intro q hq
    exact hgk q (List.mem_filter.1 hq).1

theorem lowerStr_empty : lowerStr "" = "" := rfl

theorem phone_raw_ne_of_norm {s : String} (h : digitsOnly s ≠ "") : s ≠ "" := by
  intro hh
  rw [hh] at h
  exact h rfl

theorem email_raw_ne_of_norm {s : String}
    (h : String.intercalate " " (words (lowerStr s)) ≠ "") : s ≠ "" := by
  intro hh
  rw [hh] at h
  exact h rfl

theorem website_raw_ne_of_norm {s : String} (h : normWebsite s ≠ "") : s ≠ "" := by
  intro hh
  rw [hh] at h
  exact h rfl

/-- One merge step keeps the merged record valid, given same-key valid
inputs: either the accumulator's witnessing field survives untouched,
or the step's recency condition imports the incoming record's
witnessing field (or leaves an equal value in place). -/
theorem validRecord_mergeStep {acc : Record × List (String × RecId)} {r : Record} {k}
    (hmk : recKey acc.1 = k) (hrk : recKey r = k)
    (hvm : validRecord acc.1) (hvr : validRecord r) :
    validRecord (mergeStep acc r).1 := by
  rw [validRecord_iff]
  have hknew : recKey (mergeStep acc r).1 = k := recKey_mergeStep hmk hrk
  by_cases hname : k.1 ≠ []
  · left
    rw [normalize_name]
    have h1 : words (lowerStr (mergeStep acc r).1.name) = k.1 :=
      congrArg Prod.fst hknew
    rw [h1]
    exact hname
  by_cases haddr : k.2 ≠ []
  · right; left
    rw [normalize_address]
    have h2 : (words (lowerStr (mergeStep acc r).1.address)).map fixAbbrev = k.2 :=
      congrArg Prod.snd hknew
    rw [h2]
    exact haddr
  push_neg at hname haddr
  have hmcases : (normalize acc.1).phone ≠ "" ∨ (normalize acc.1).email ≠ ""
      ∨ (normalize acc.1).website ≠ "" := by
    rcases (validRecord_iff acc.1).1 hvm with h | h | h | h | h
    · exfalso
      rw [normalize_name] at h
      exact h ((congrArg Prod.fst hmk).trans hname)
    · exfalso
      rw [normalize_address] at h
      exact h ((congrArg Prod.snd hmk).trans haddr)
    · exact Or.inl h
    · exact Or.inr (Or.inl h)
    · exact Or.inr (Or.inr h)
  have hrcases : (normalize r).phone ≠ "" ∨ (normalize r).email ≠ ""
      ∨ (normalize r).website ≠ "" := by
    rcases (validRecord_iff r).1 hvr with h | h | h | h | h
    · exfalso
      rw [normalize_name] at h
      exact h ((congrArg Prod.fst hrk).trans hname)
    · exfalso
      rw [normalize_address] at h
      exact h ((congrArg Prod.snd hrk).trans haddr)
    · exact Or.inl h
    · exact Or.inr (Or.inl h)
    · exact Or.inr (Or.inr h)
  by_cases hlt : acc.1.lastSeen < r.lastSeen
  · -- the incoming record's witnessing contact field ends up in the result
    rcases hrcases with hsrc | hsrc | hsrc
    · right; right; left
      rw [normalize_phone] at hsrc ⊢
      rw [mergeStep_fst_phone]
      have hraw : r.phone ≠ "" := phone_raw_ne_of_norm hsrc
      by_cases h1 : acc.1.phone = ""
      · rw [if_pos ⟨hraw, Or.inl h1⟩]
        exact hsrc
      · by_cases h2 : r.phone = acc.1.phone
        · rw [if_neg (by
            rintro ⟨_, hor⟩
            rcases hor with h | ⟨hne, _⟩
            · exact h1 h
            · exact hne h2)]
          rw [← h2]
          exact hsrc
        · rw [if_pos ⟨hraw, Or.inr ⟨h2, hlt⟩⟩]
          exact hsrc
    · right; right; right; left
      rw [normalize_email] at hsrc ⊢
      rw [mergeStep_fst_email]
      have hraw : r.email ≠ "" := email_raw_ne_of_norm hsrc
      by_cases h1 : acc.1.email = ""
      · rw [if_pos ⟨hraw, Or.inl h1⟩]
        exact hsrc
      · by_cases h2 : r.email = acc.1.email
        · rw [if_neg (by
            rintro ⟨_, hor⟩
            rcases hor with h | ⟨hne, _⟩
            · exact h1 h
            · exact hne h2)]
          rw [← h2]
          exact hsrc
        · rw [if_pos ⟨hraw, Or.inr ⟨h2, hlt⟩⟩]
          exact hsrc
    · right; right; right; right
      rw [normalize_website] at hsrc ⊢
      rw [mergeStep_fst_website]
      have hraw : r.website ≠ "" := website_raw_ne_of_norm hsrc
      by_cases h1 : acc.1.website = ""
      · rw [if_pos ⟨hraw, Or.inl h1⟩]
        exact hsrc
      · by_cases h2 : r.website = acc.1.website
        · rw [if_neg (by
            rintro ⟨_, hor⟩
            rcases hor with h | ⟨hne, _⟩
            · exact h1 h
            · exact hne h2)]
          rw [← h2]
          exact hsrc
        · rw [if_pos ⟨hraw, Or.inr ⟨h2, hlt⟩⟩]
          exact hsrc
  · -- no recency update can fire, so the accumulator's witnessing
    -- contact field is kept
    rcases hmcases with hsrc | hsrc | hsrc
    · right; right; left
      rw [normalize_phone] at hsrc ⊢
      rw [mergeStep_fst_phone]
      have hraw : acc.1.phone ≠ "" := phone_raw_ne_of_norm hsrc
      rw [if_neg (by
        rintro ⟨_, hor⟩
        rcases hor with h | ⟨_, h⟩
        · exact hraw h
        · exact hlt h)]
      exact hsrc
    · right; right; right; left
      rw [normalize_email] at hsrc ⊢
      rw [mergeStep_fst_email]
      have hraw : acc.1.email ≠ "" := email_raw_ne_of_norm hsrc
      rw [if_neg (by
        rintro ⟨_, hor⟩
        rcases hor with h | ⟨_, h⟩
        · exact hraw h
        · exact hlt h)]
      exact hsrc
    · right; right; right; right
      rw [normalize_website] at hsrc ⊢
      rw [mergeStep_fst_website]
      have hraw : acc.1.website ≠ "" := website_raw_ne_of_norm hsrc
      rw [if_neg (by
        rintro ⟨_, hor⟩
        rcases hor with h | ⟨_, h⟩
        · exact hraw h
        · exact hlt h)]
      exact hsrc

theorem validRecord_foldl_mergeStep {k} :
    ∀ (l : List Record) (acc : Record × List (String × RecId)),
      recKey acc.1 = k → validRecord acc.1 →
      (∀ r ∈ l, recKey r = k ∧ validRecord r) →
      validRecord (l.foldl mergeStep acc).1
  | [], _, _, hv, _ => hv
  | r :: rs, acc, hk, hv, hl => by
    rw [List.foldl_cons]
    have hr := hl r (List.mem_cons_self _ _)
    exact validRecord_foldl_mergeStep rs _
      (recKey_mergeStep hk hr.1) (validRecord_mergeStep hk hr.1 hv hr.2)
      (fun q hq => hl q (List.mem_cons_of_mem _ hq))

theorem resolveList_valid {g : List Record} {k} (hgk : ∀ r ∈ g, recKey r = k)
    (hgv : ∀ r ∈ g, validRecord r) {d : MergeDecision}
    (hd : resolveList g = some d) : validRecord d.primary := by
  match g, hd with
  | r :: rs, hd =>
    have he : resolveList (r :: rs)
        = some ⟨(mergeWithProv (pickPrimary r rs)
              ((r :: rs).filter (fun q => decide (q.id ≠ (pickPrimary r rs).id)))).1,
            ((r :: rs).filter
              (fun q => decide (q.id ≠ (pickPrimary r rs).id))).map Record.id,
            (mergeWithProv (pickPrimary r rs)
              ((r :: rs).filter (fun q => decide (q.id ≠ (pickPrimary r rs).id)))).2⟩ := rfl
    rw [he] at hd
    obtain rfl := Option.some.inj hd
    show validRecord (mergeWithProv (pickPrimary r rs)
      ((r :: rs).filter (fun q => decide (q.id ≠ (pickPrimary r rs).id)))).1
    refine validRecord_foldl_mergeStep _ _ (hgk _ (pickPrimary_mem r rs))
      (hgv _ (pickPrimary_mem r rs)) ?_
    intro q hq
    have hq' := (List.mem_filter.1 hq).1
    exact ⟨hgk q hq', hgv q hq'⟩

end Dedup

namespace Dedup

/-- Every survivor is a valid record: exact groups hold only valid
records, primary selection picks a member, and the field merge
preserves validity. -/
theorem survivors_valid {input : List Record} {s : Record}
    (hs : s ∈ survivors input) : validRecord s := by
  rcases mem_survivors.1 hs with ⟨g, hg, d, hd, rfl⟩
  rcases groupsOf_spec hg with ⟨k, _, _, hall⟩
  exact resolveList_valid (fun r hr => (hall r hr).2)
    (fun r hr => of_decide_eq_true (List.mem_filter.1 (hall r hr).1).2) hd

/-- Distinct survivors carry distinct exact-match keys: each survivor
keeps its group's key, and distinct groups have distinct keys. -/
theorem survivors_nodup_keys (input : List Record) :
    ((survivors input).map recKey).Nodup := by
  refine List.pairwise_map.2 ?_
  unfold survivors
  rw [List.pairwise_filterMap]
  have hkeys : (dedupKeys input).Nodup := List.nodup_dedup _
  unfold groupsOf
  refine List.pairwise_map.2 ?_
  refine hkeys.imp ?_
  intro k₁ k₂ hne s₁ hs₁ s₂ hs₂
  rcases hod₁ : resolveList ((goodRecords input).filter (fun r => decide (recKey r = k₁)))
    with _ | d₁
  · rw [hod₁] at hs₁; simp at hs₁
  rcases hod₂ : resolveList ((goodRecords input).filter (fun r => decide (recKey r = k₂)))
    with _ | d₂
  · rw [hod₂] at hs₂; simp at hs₂
  rw [hod₁] at hs₁
  rw [hod₂] at hs₂
  simp only [Option.map_some', Option.mem_def, Option.some.injEq] at hs₁ hs₂
  subst hs₁
  subst hs₂
  have hk₁ : recKey d₁.primary = k₁ :=
    resolveList_key (fun r hr => of_decide_eq_true (List.mem_filter.1 hr).2) hod₁
  have hk₂ : recKey d₂.primary = k₂ :=
    resolveList_key (fun r hr => of_decide_eq_true (List.mem_filter.1 hr).2) hod₂
  rw [hk₁, hk₂]
  exact hne

/-- Converse of `allPairs_sublist`: an ordered two-element sublist
appears among the unordered pairs. -/
theorem pair_sublist_mem_allPairs {x y : α} :
    ∀ {l : List α}, [x, y].Sublist l → (x, y) ∈ allPairs l := by
  intro l h
  induction l with
  | nil => cases h
  | cons a l ih =>
    cases h with
    | cons _ h' =>
      show (x, y) ∈ l.map (fun z => (a, z)) ++ allPairs l
      exact List.mem_append_right _ (ih h')
    | cons₂ _ h' =>
      show (x, y) ∈ l.map (fun z => (x, z)) ++ allPairs l
      exact List.mem_append_left _
        (List.mem_map_of_mem _ (h'.subset (List.mem_cons_self _ _)))

theorem fuzzyCandidate_some_spec {cfg : Config} {a b : Record} {m : MatchResult}
    (h : fuzzyCandidate cfg (a, b) = some m) :
    m.idA = a.id ∧ m.idB = b.id ∧ m.tier ≠ Tier.none := by
  unfold fuzzyCandidate at h
  dsimp only at h
  rcases hcmp : Dedup.compare cfg.weights (normalize a) (normalize b) with _ | c
  · rw [hcmp] at h
    exact absurd h (by simp)
  · rw [hcmp] at h
    dsimp only at h
    by_cases hcond : cfg.threshold ≤ c ∧ classify cfg c ≠ Tier.none
    · rw [if_pos hcond] at h
      obtain rfl := (Option.some.inj h).symm
      exact ⟨rfl, rfl, hcond.2⟩
    · rw [if_neg hcond] at h
      exact absurd h (by simp)

theorem highEdges_nil_of_no_high {cfg : Config} {input : List Record}
    (h : ∀ m ∈ fuzzyMatches cfg input, m.tier ≠ Tier.high) :
    highEdges cfg input = [] := by
  unfold highEdges
  have hf : (fuzzyMatches cfg input).filter (fun m => decide (m.tier = Tier.high)) = [] := by
    rw [List.filter_eq_nil_iff]
    intro m hm
    simp only [decide_eq_true_eq]
    exact h m hm
  rw [hf]
  rfl

theorem comps_nil_of_no_high {cfg : Config} {input : List Record}
    (h : ∀ m ∈ fuzzyMatches cfg input, m.tier ≠ Tier.high) :
    comps cfg input = [] := by
  unfold comps
  rw [highEdges_nil_of_no_high h]
  rfl

theorem fuzzyDecisions_nil_of_no_high {cfg : Config} {input : List Record}
    (h : ∀ m ∈ fuzzyMatches cfg input, m.tier ≠ Tier.high) :
    fuzzyDecisions cfg input = [] := by
  unfold fuzzyDecisions
  rw [comps_nil_of_no_high h]
  rfl

theorem highMembers_nil_of_no_high {cfg : Config} {input : List Record}
    (h : ∀ m ∈ fuzzyMatches cfg input, m.tier ≠ Tier.high) :
    highMembers cfg input = [] := by
  unfold highMembers
  rw [comps_nil_of_no_high h]
  rfl

/-- On a valid, key-distinct record list the exact pass produces no
merge decisions: every key group is a singleton. -/
theorem exactDecisions_nil {input : List Record}
    (hgood : goodRecords input = input) (hknd : (input.map recKey).Nodup) :
    exactDecisions input = [] := by
  unfold exactDecisions groupsOf dedupKeys
  rw [hgood, List.dedup_eq_self.2 hknd, List.filterMap_map, List.filterMap_map]
  have hcong : ∀ r ∈ input,
      ((fun g => if 2 ≤ g.length then resolveList g else none) ∘
        (fun k => input.filter (fun q => decide (recKey q = k)))) (recKey r)
        = (none : Option MergeDecision) := by
    intro r hr
    show (if 2 ≤ (input.filter (fun q => decide (recKey q = recKey r))).length
        then resolveList (input.filter (fun q => decide (recKey q = recKey r)))
        else none) = none
    rw [filter_key_singleton hknd r hr]
    rfl
  calc input.filterMap _
      = input.filterMap (fun _ => (none : Option MergeDecision)) :=
        List.filterMap_congr (fun r hr => hcong r hr)
    _ = [] := by simp

/-- A pass over a valid, key-distinct record list that records no fuzzy
match leaves everything unchanged: the final set is the input, and no
decision or review item is produced. -/
theorem runOutput_stable {cfg : Config} {l : List Record}
    (hgood : goodRecords l = l) (hknd : (l.map recKey).Nodup)
    (hfm : fuzzyMatches cfg l = []) :
    finalRecordsOf cfg l = l
    ∧ exactDecisions l ++ fuzzyDecisions cfg l = []
    ∧ reviewQueueOf cfg l = [] := by
  have hsurv : survivors l = l := survivors_eq_self hgood hknd
  have hex : exactDecisions l = [] := exactDecisions_nil hgood hknd
  have hhe : highEdges cfg l = [] := by
    unfold highEdges
    rw [hfm]
    rfl
  have hcomps : comps cfg l = [] := by
    unfold comps
    rw [hhe]
    rfl
  have hfzd : fuzzyDecisions cfg l = [] := by
    unfold fuzzyDecisions
    rw [hcomps]
    rfl
  have hhm : highMembers cfg l = [] := by
    unfold highMembers
    rw [hcomps]
    rfl
  have hrv : reviewQueueOf cfg l = [] := by
    unfold reviewQueueOf
    rw [hfm]
    rfl
  have hrvids : reviewIdsOf cfg l = [] := by
    unfold reviewIdsOf
    rw [hrv]
    rfl
  refine ⟨?_, ?_, hrv⟩
  · unfold finalRecordsOf
    rw [hfzd, hhm, hrvids]
    simp only [List.map_nil, List.nil_append]
    rw [hsurv]
    refine List.filter_eq_self.2 ?_
    intro r _
    exact decide_eq_true ⟨List.not_mem_nil _, List.not_mem_nil _⟩
  · rw [hex, hfzd]
    rfl

end Dedup

namespace Dedup

/-- Projection equations of `runOutput`, stated once over a variable
record list so later rewrites never force the unifier to unfold the
pipeline at a compound argument. -/
theorem runOutput_eta (cfg : Config) (l : List Record) :
    (runOutput cfg l).finalRecords = finalRecordsOf cfg l
    ∧ (runOutput cfg l).decisions = exactDecisions l ++ fuzzyDecisions cfg l
    ∧ (runOutput cfg l).reviewQueue = reviewQueueOf cfg l :=
  ⟨rfl, rfl, rfl⟩

/-- C6 (amended): idempotence holds for every run that performs no
HIGH-confidence fuzzy merge — including runs with exact-duplicate
merge decisions and runs that fill the review queue: re-running the
engine on final_records returns it unchanged, with no new merge
decisions and an empty review queue.  (Unrestricted idempotence is
false: when a HIGH fuzzy merge occurs, its merged record is never
fuzzy-compared in the first pass and MEDIUM candidates touching the
merge group are suppressed, so the second run can detect new matches
and change the final set — see the counterexample.) -/
theorem dedup_idempotent_no_high_merge (cfg : Config) (input : List Record)
    (out : RunOutput) (hrun : run cfg input = Except.ok out)
    (hhigh : ∀ m ∈ out.fuzzyMatched, m.tier ≠ Tier.high) :
    (runOutput cfg out.finalRecords).finalRecords = out.finalRecords
    ∧ (runOutput cfg out.finalRecords).decisions = []
    ∧ (runOutput cfg out.finalRecords).reviewQueue = [] := by
  obtain rfl := run_ok_eq hrun
  have hhigh' : ∀ m ∈ fuzzyMatches cfg input, m.tier ≠ Tier.high := hhigh
  have hfz : fuzzyDecisions cfg input = [] := fuzzyDecisions_nil_of_no_high hhigh'
  have hhm : highMembers cfg input = [] := highMembers_nil_of_no_high hhigh'
  have hFfilter : finalRecordsOf cfg input
      = (survivors input).filter
          (fun r => decide (r.id ∉ highMembers cfg input ∧ r.id ∉ reviewIdsOf cfg input)) := by
    unfold finalRecordsOf
    rw [hfz]
    rfl
  have hFsub : (finalRecordsOf cfg input).Sublist (survivors input) := by
    rw [hFfilter]
    exact List.filter_sublist _
  have hFgood : goodRecords (finalRecordsOf cfg input) = finalRecordsOf cfg input :=
    goodRecords_eq_self (fun r hr => survivors_valid (hFsub.subset hr))
  have hFkeys : ((finalRecordsOf cfg input).map recKey).Nodup :=
    (survivors_nodup_keys input).sublist (hFsub.map recKey)
  have hFsurv : survivors (finalRecordsOf cfg input) = finalRecordsOf cfg input :=
    survivors_eq_self hFgood hFkeys
  have hFfm : fuzzyMatches cfg (finalRecordsOf cfg input) = [] := by
    unfold fuzzyMatches
    rw [hFsurv, List.filterMap_eq_nil_iff]
    rintro ⟨x, y⟩ hp
    rcases hc : fuzzyCandidate cfg (x, y) with _ | m
    · rfl
    exfalso
    have hxy : [x, y].Sublist (finalRecordsOf cfg input) := allPairs_sublist hp
    have hx : x ∈ finalRecordsOf cfg input := hxy.subset (List.mem_cons_self _ _)
    have hpair : (x, y) ∈ allPairs (survivors input) :=
      pair_sublist_mem_allPairs (hxy.trans hFsub)
    have hmem : m ∈ fuzzyMatches cfg input := List.mem_filterMap.2 ⟨(x, y), hpair, hc⟩
    rcases fuzzyCandidate_some_spec hc with ⟨hida, _, htn⟩
    have hth := hhigh' m hmem
    have hml : m.tier = Tier.medium ∨ m.tier = Tier.low := by
      cases htier : m.tier
      · exact absurd htier htn
      · exact Or.inr rfl
      · exact Or.inl rfl
      · exact absurd htier hth
    have hrq : m ∈ reviewQueueOf cfg input := by
      unfold reviewQueueOf
      refine List.mem_filter.2 ⟨hmem, decide_eq_true ⟨hml, ?_, ?_⟩⟩
      · rw [hhm]
        exact List.not_mem_nil _
      · rw [hhm]
        exact List.not_mem_nil _
    have hidrv : x.id ∈ reviewIdsOf cfg input :=
      mem_reviewIdsOf.2 ⟨m, hrq, Or.inl hida.symm⟩
    rw [hFfilter] at hx
    rcases List.mem_filter.1 hx with ⟨_, hcond⟩
    exact (of_decide_eq_true hcond).2 hidrv
  have hstable := runOutput_stable hFgood hFkeys hFfm
  rw [(runOutput_eta cfg input).1,
      (runOutput_eta cfg (finalRecordsOf cfg input)).1,
      (runOutput_eta cfg (finalRecordsOf cfg input)).2.1,
      (runOutput_eta cfg (finalRecordsOf cfg input)).2.2]
  exact hstable

end Dedup

namespace Dedup

set_option maxRecDepth 100000

theorem dedup_idempotent_no_high_merge_witness :
    (runOutput defaultConfig (runOutput defaultConfig
        [mkRecord 1 "Foo" "12 Main St" "" "" "", mkRecord 2 "foo" "12 main street" "" "" "",
         mkRecord 3 "bar baz" "99 qq" "" "" ""]).finalRecords).finalRecords
      = (runOutput defaultConfig
        [mkRecord 1 "Foo" "12 Main St" "" "" "", mkRecord 2 "foo" "12 main street" "" "" "",
         mkRecord 3 "bar baz" "99 qq" "" "" ""]).finalRecords
    ∧ (runOutput defaultConfig (runOutput defaultConfig
        [mkRecord 1 "Foo" "12 Main St" "" "" "", mkRecord 2 "foo" "12 main street" "" "" "",
         mkRecord 3 "bar baz" "99 qq" "" "" ""]).finalRecords).decisions = []
    ∧ (runOutput defaultConfig (runOutput defaultConfig
        [mkRecord 1 "Foo" "12 Main St" "" "" "", mkRecord 2 "foo" "12 main street" "" "" "",
         mkRecord 3 "bar baz" "99 qq" "" "" ""]).finalRecords).reviewQueue = [] :=
  dedup_idempotent_no_high_merge defaultConfig
    [mkRecord 1 "Foo" "12 Main St" "" "" "", mkRecord 2 "foo" "12 main street" "" "" "",
     mkRecord 3 "bar baz" "99 qq" "" "" ""]
    (runOutput defaultConfig
      [mkRecord 1 "Foo" "12 Main St" "" "" "", mkRecord 2 "foo" "12 main street" "" "" "",
       mkRecord 3 "bar baz" "99 qq" "" "" ""])
    (run_eq_ok (of_decide_eq_true (by with_unfolding_all rfl)))
    (of_decide_eq_true (by with_unfolding_all rfl))

end Dedup
